import Mathlib

/-!
# Verification of the easy-patch core (parser + applier)

Shallow embedding of `easy_patch.py`. Strings are modelled as `List Char`;
Python string indices are `Nat`; Python `str.find` (returning `-1` on
failure) is modelled as `Option Nat`; raised `ValueError`s are modelled as
`Except` errors. Mutable `ParserState` objects are threaded explicitly:
every helper returns the updated state, also on the error path (a Python
exception leaves the mutations made before the raise in place).
-/

deriving instance DecidableEq for Except

namespace EasyPatch

/-- `OperationType` enum, in Python declaration order
REPLACE, ADD_BEFORE, ADD_AFTER, DELETE. -/
inductive OperationType where
  | REPLACE
  | ADD_BEFORE
  | ADD_AFTER
  | DELETE
deriving DecidableEq, Repr

/-- The literal keyword (`.value`) of each enum member. -/
def OperationType.value : OperationType → List Char
  | .REPLACE => "REPLACE WITH".toList
  | .ADD_BEFORE => "ADD BEFORE".toList
  | .ADD_AFTER => "ADD AFTER".toList
  | .DELETE => "DELETE".toList

/-- Python iteration order of `for op_type in OperationType`. -/
def operationTypeList : List OperationType :=
  [.REPLACE, .ADD_BEFORE, .ADD_AFTER, .DELETE]

/-- `PatchOperation` dataclass. -/
structure PatchOperation where
  file_path : List Char
  find_content : List Char
  operation : OperationType
  new_content : Option (List Char)
deriving DecidableEq, Repr

/-- `Error` dataclass (used for both parse and apply errors);
`operation_index` is an `Int` because the Python caller uses `-1` for
file-level errors. -/
structure Error where
  file_path : List Char
  message : String
  operation_index : Int
deriving DecidableEq, Repr

/-- Well-formedness invariant of the data model: `new_content` is present
for REPLACE / ADD_BEFORE / ADD_AFTER and absent for DELETE. -/
def OpWF (op : PatchOperation) : Prop :=
  (op.operation = .DELETE → op.new_content = none) ∧
  (op.operation ≠ .DELETE → op.new_content.isSome = true)

instance (op : PatchOperation) : Decidable (OpWF op) := by
  unfold OpWF
  exact inferInstance

/-! ## Python `str.find` -/

/-- Helper for `str.find`: scan the suffix `h` for the needle `n`,
reporting the absolute index (the scan started at absolute index `i`). -/
def findAux (n : List Char) : List Char → Nat → Option Nat
  | h, i =>
    if n.isPrefixOf h then some i
    else
      match h with
      | [] => none
      | _ :: t => findAux n t (i + 1)

/-- `content.find(needle, start)`: lowest index `≥ start` at which `needle`
occurs in `content`, `none` when absent or when `start` exceeds the length
(Python returns `-1` there). -/
def pyFind (content needle : List Char) (start : Nat) : Option Nat :=
  if start ≤ content.length then findAux needle (content.drop start) start
  else none

/-- `needle` occurs in `content` at index `p` (overlapping occurrences are
distinct occurrences; for an empty needle every `p ≤ length` counts). -/
def occursAt (content needle : List Char) (p : Nat) : Prop :=
  p ≤ content.length ∧ needle.isPrefixOf (content.drop p)

instance (content needle : List Char) (p : Nat) :
    Decidable (occursAt content needle p) := by
  unfold occursAt; exact inferInstance

/-- Number of occurrence positions of `needle` in `content`. -/
def occCount (content needle : List Char) : Nat :=
  (List.range (content.length + 1)).countP
    (fun p => decide (occursAt content needle p))

/-! ## Applier -/

/-- A raised Python exception: `ValueError msg` is caught by the batch
applier, `typeError` models the `TypeError` raised when `new_content` is
`None` for a non-DELETE operation (not caught anywhere). -/
inductive PyErr where
  | valueError (msg : String)
  | typeError
deriving DecidableEq, Repr

/-- `apply_operation(content, operation)` from `easy_patch.py`. -/
def apply_operation (content : List Char) (op : PatchOperation) :
    Except PyErr (List Char) :=
  match pyFind content op.find_content 0 with
  | none => .error (.valueError "Context not found in file")
  | some find_index =>
    match pyFind content op.find_content (find_index + 1) with
    | some _ => .error (.valueError "Context appears multiple times in file")
    | none =>
      match op.operation with
      | .REPLACE =>
        match op.new_content with
        | some r =>
          .ok (content.take find_index ++ r ++
            content.drop (find_index + op.find_content.length))
        | none => .error .typeError
      | .ADD_BEFORE =>
        match op.new_content with
        | some r =>
          .ok (content.take find_index ++ r ++ ['\n'] ++
            content.drop find_index)
        | none => .error .typeError
      | .ADD_AFTER =>
        match op.new_content with
        | some r =>
          .ok (content.take (find_index + op.find_content.length) ++ ['\n'] ++
            r ++ content.drop (find_index + op.find_content.length))
        | none => .error .typeError
      | .DELETE =>
        .ok (content.take find_index ++
          content.drop (find_index + op.find_content.length))

/-- The loop of `apply_operations_to_content`: `orig` is the untouched
original content returned on failure, `current` the evolving content, `i`
the `enumerate` index. The outer `Except Unit` is an uncaught exception
(`TypeError`), which in Python would abort the whole process. -/
def applyLoop (orig : List Char) : List Char → List PatchOperation → Nat →
    Except Unit (List Char × List Error)
  | current, [], _ => .ok (current, [])
  | current, op :: rest, i =>
    match apply_operation current op with
    | .ok c => applyLoop orig c rest (i + 1)
    | .error (.valueError m) => .ok (orig, [⟨op.file_path, m, (i : Int)⟩])
    | .error .typeError => .error ()

/-- `apply_operations_to_content(content, operations)` from
`easy_patch.py`. -/
def apply_operations_to_content (content : List Char)
    (ops : List PatchOperation) : Except Unit (List Char × List Error) :=
  applyLoop content content ops 0

/-- Reference chain: apply the operations left to right, propagating the
first failure (used to state what "every operation succeeds" / "the first
failing operation" mean). -/
def chainApply : List Char → List PatchOperation → Except PyErr (List Char)
  | c, [] => .ok c
  | c, op :: rest =>
    match apply_operation c op with
    | .ok c2 => chainApply c2 rest
    | .error e => .error e

/-! ## Cursor (`ParserState`) -/

/-- Python `str.isspace`, i.e. the whitespace class shared by
`str.strip()` and `str.split()`: CPython recognizes exactly the code
points 9-13 (tab, newline, vertical tab, form feed, carriage return),
28-31 (the ASCII separator controls), 32 (space), 0x85 (next line),
0xa0 (no-break space), 0x1680 (ogham space mark), 0x2000-0x200a (the
en-quad to hair-space block), 0x2028 (line separator), 0x2029 (paragraph
separator), 0x202f (narrow no-break space), 0x205f (medium mathematical
space) and 0x3000 (ideographic space). -/
def pyIsSpace (c : Char) : Bool :=
  (9 ≤ c.toNat && c.toNat ≤ 13) || c.toNat == 32 ||
  (28 ≤ c.toNat && c.toNat ≤ 31) || c.toNat == 0x85 || c.toNat == 0xa0 ||
  c.toNat == 0x1680 || (0x2000 ≤ c.toNat && c.toNat ≤ 0x200a) ||
  c.toNat == 0x2028 || c.toNat == 0x2029 || c.toNat == 0x202f ||
  c.toNat == 0x205f || c.toNat == 0x3000

/-- Python `str.strip()` (over the same whitespace class). -/
def pyStrip (l : List Char) : List Char :=
  ((l.dropWhile pyIsSpace).reverse.dropWhile pyIsSpace).reverse

/-- `ParserState` dataclass: the cursor over the script text. -/
structure ParserState where
  content : List Char
  position : Nat
  line : Nat
deriving DecidableEq, Repr

/-- `ParserState.current()`: character at `position`, `none` modelling the
empty-string sentinel at end of text. -/
def currentC (s : ParserState) : Option Char :=
  s.content[s.position]?

/-- `ParserState.peek(n)`: the next up-to-`n` characters. -/
def peek (s : ParserState) (n : Nat) : List Char :=
  (s.content.drop s.position).take n

/-- One step of `ParserState.advance`: bump `line` when the character under
the cursor is a newline, then move `position` forward, clamped to the text
length (Python: `position += 1; if position > len: position = len`). -/
def advance1 (s : ParserState) : ParserState :=
  { s with
    position := min (s.position + 1) s.content.length,
    line := if currentC s = some '\n' then s.line + 1 else s.line }

/-- `ParserState.advance(n)`: `n` repetitions of the single step. -/
def advance : ParserState → Nat → ParserState
  | s, 0 => s
  | s, n + 1 => advance (advance1 s) n

/-! ## Lexical helpers -/

/-- Length of the maximal leading whitespace run (the number of iterations
of the `while state.current().isspace()` loop). -/
def skipWsCount : List Char → Nat
  | [] => 0
  | c :: t => if pyIsSpace c then skipWsCount t + 1 else 0

/-- `skip_whitespace(state)`: advance while the current character is
whitespace (the end-of-text sentinel is not whitespace) — i.e. advance
past the maximal leading whitespace run of the remaining text. -/
def skip_whitespace (s : ParserState) : ParserState :=
  advance s (skipWsCount (s.content.drop s.position))

/-- Number of characters the `parse_until` loop consumes from the given
remaining text: it stops at end of text or where some delimiter is a
prefix of the upcoming text (`peek(len(d)) == d`). -/
def untilCount (ds : List (List Char)) : List Char → Nat
  | [] => 0
  | c :: t => if ds.any (fun d => d.isPrefixOf (c :: t)) then 0
      else untilCount ds t + 1

/-- `parse_until(state, *delimiters)`: accumulate characters until the
lookahead matches one of the delimiters (or end of text); the delimiter
itself is not consumed. The accumulated result is exactly the consumed
prefix of the remaining text. -/
def parse_until (s : ParserState) (ds : List (List Char)) :
    List Char × ParserState :=
  ((s.content.drop s.position).take (untilCount ds (s.content.drop s.position)),
   advance s (untilCount ds (s.content.drop s.position)))

/-- `parse_keyword(state, keyword)`: try-consume a literal keyword; on
failure the state is unchanged. -/
def parse_keyword (s : ParserState) (k : List Char) : Bool × ParserState :=
  if peek s k.length == k then (true, advance s k.length) else (false, s)

/-! ## Directive parser -/

/-- An ASCII single quote, kept out of string literals. -/
def sq : String := "\x27"

def kwFILE : List Char := "FILE:".toList
def kwFIND : List Char := "FIND:".toList
def nlFIND : List Char := "\nFIND:".toList
def nlFILE : List Char := "\nFILE:".toList
def kwREPLACEC : List Char := "REPLACE WITH:".toList
def kwADDBC : List Char := "ADD BEFORE:".toList
def kwADDAC : List Char := "ADD AFTER:".toList
def kwDELETE : List Char := "DELETE".toList

/-- `parse_file_directive(state)`: consume `FILE:` and the path up to
`FIND:` or a newline; trim it, reject an empty path, normalize backslashes
to forward slashes. An error carries the state at the raise point (the
Python exception leaves the shared state mutated). -/
def parse_file_directive (s0 : ParserState) :
    Except (String × ParserState) (List Char × ParserState) :=
  let s1 := skip_whitespace s0
  match parse_keyword s1 kwFILE with
  | (false, _) =>
    .error ("Expected " ++ sq ++ "FILE:" ++ sq ++ " at line " ++
      Nat.repr s1.line, s1)
  | (true, s2) =>
    let r := parse_until s2 [kwFIND, ['\n']]
    let fp := pyStrip r.1
    if fp.isEmpty then .error ("Empty file path", r.2)
    else .ok (fp.map (fun c => if c = '\\' then '/' else c), r.2)

/-- `parse_find_block(state)`: consume `FIND:` then text up to the next
operation keyword (with colon for the three content-bearing ones, bare
`DELETE`), trimmed. -/
def parse_find_block (s0 : ParserState) :
    Except (String × ParserState) (List Char × ParserState) :=
  let s1 := skip_whitespace s0
  match parse_keyword s1 kwFIND with
  | (false, _) =>
    .error ("Expected " ++ sq ++ "FIND:" ++ sq ++ " at line " ++
      Nat.repr s1.line, s1)
  | (true, s2) =>
    let s3 := skip_whitespace s2
    let r := parse_until s3 [kwREPLACEC, kwADDBC, kwADDAC, kwDELETE]
    .ok (pyStrip r.1, r.2)

/-- The `for op_type in OperationType` loop of `parse_operation`: try each
keyword in order. A keyword matched but not followed by `:` is abandoned
with `continue` — the cursor stays advanced past the consumed keyword, as
in the Python source. The final state is returned also when no keyword
matches (the shared state keeps its mutations). -/
def tryOp : List OperationType → ParserState →
    Option (OperationType × Option (List Char)) × ParserState
  | [], s => (none, s)
  | op :: rest, s =>
    match parse_keyword s op.value with
    | (true, s1) =>
      if op = .DELETE then (some (op, none), s1)
      else
        match currentC s1 with
        | some ':' =>
          let s2 := advance s1 1
          let s3 := skip_whitespace s2
          let r := parse_until s3 [nlFIND, nlFILE]
          (some (op, some (pyStrip r.1)), r.2)
        | _ => tryOp rest s1
    | (false, s1) => tryOp rest s1

/-- `parse_operation(state)`: skip whitespace, then try the keywords in
enum declaration order; `none` signals absence (not a failure). -/
def parse_operation (s0 : ParserState) :
    Option (OperationType × Option (List Char)) × ParserState :=
  tryOp operationTypeList (skip_whitespace s0)

/-! ## Script parser (`parse_patch_file`) -/

/-- The pure whitespace scan of the inner loop of `parse_patch_file`
(`next_pos` runs forward over whitespace without mutating the state):
first index at or after `p` holding a non-whitespace character (or the
end of text). -/
def wsScan (c : List Char) (p : Nat) : Nat :=
  p + skipWsCount (c.drop p)

/-- `"unknown" if not 'file_path' in locals() else file_path`. -/
def pathName : Option (List Char) → List Char
  | none => "unknown".toList
  | some p => p

/-- Outcome of the inner find/operation loop of `parse_patch_file`:
either a normal exit (`FILE:` ahead or end of input) or a raised
`ValueError`, both carrying the mutated state and the operations and
operation count accumulated so far. -/
inductive InnerOut where
  | done (s : ParserState) (ops : List PatchOperation) (idx : Nat)
  | fail (msg : String) (s : ParserState) (ops : List PatchOperation)
      (idx : Nat)
deriving DecidableEq, Repr

/-- The inner loop of `parse_patch_file`, fuel-indexed (`none` = fuel ran
out; the termination theorem shows enough fuel always exists). `path` is
the `file_path` parsed for the current block. -/
def innerLoop : Nat → List Char → ParserState → List PatchOperation →
    Nat → Option InnerOut
  | 0, _, _, _, _ => none
  | fuel + 1, path, s, ops, idx =>
    if s.position < s.content.length then
      let np := wsScan s.content s.position
      if decide (np < s.content.length) &&
          kwFILE.isPrefixOf (s.content.drop np) then
        some (.done s ops idx)
      else
        match parse_find_block s with
        | .error (m, sE) => some (.fail m sE ops idx)
        | .ok (fc, s1) =>
          match parse_operation s1 with
          | (none, s2) =>
            some (.fail ("Expected operation at line " ++ Nat.repr s2.line)
              s2 ops idx)
          | (some (ot, nc), s2) =>
            let s3 := skip_whitespace s2
            innerLoop fuel path s3 (ops ++ [⟨path, fc, ot, nc⟩]) (idx + 1)
    else some (.done s ops idx)

/-- The outer block loop of `parse_patch_file`, fuel-indexed. `lastPath`
models the `file_path` local variable, which survives across loop
iterations — it is `none` only while no `FILE:` directive has ever
succeeded in this parse. -/
def outerLoop : Nat → ParserState → List PatchOperation → List Error →
    Nat → Option (List Char) → Option (List PatchOperation × List Error)
  | 0, _, _, _, _, _ => none
  | fuel + 1, s, ops, errs, idx, lastPath =>
    if s.position < s.content.length then
      match parse_file_directive s with
      | .error (m, sE) =>
        let errs2 := errs ++ [⟨pathName lastPath, m, (idx : Int)⟩]
        outerLoop fuel (parse_until sE [kwFILE]).2 ops errs2 idx lastPath
      | .ok (fp, s1) =>
        match innerLoop (s.content.length + 2) fp s1 ops idx with
        | none => none
        | some (.done s2 ops2 idx2) =>
          outerLoop fuel s2 ops2 errs idx2 (some fp)
        | some (.fail m s2 ops2 idx2) =>
          let errs2 := errs ++ [⟨fp, m, (idx2 : Int)⟩]
          outerLoop fuel (parse_until s2 [kwFILE]).2 ops2 errs2 idx2
            (some fp)
    else some (ops, errs)

/-- `parse_patch_file(content)`: run the outer loop from a fresh cursor
with enough fuel (`none` would mean the loops failed to terminate within
`length + 2` iterations; the termination theorem rules it out). -/
def parse_patch_file (content : List Char) :
    Option (List PatchOperation × List Error) :=
  outerLoop (content.length + 2) ⟨content, 0, 1⟩ [] [] 0 none

/-! ## Applier claims -/

/-- The rewrite the spec describes for a unique match at position `p`
(REPLACE substitutes the span, ADD_BEFORE inserts replacement + newline
before the match, ADD_AFTER inserts newline + replacement after it,
DELETE removes the span). -/
def applySpec (C : List Char) (op : PatchOperation) (p : Nat) : List Char :=
  match op.operation with
  | .REPLACE =>
    C.take p ++ op.new_content.getD [] ++ C.drop (p + op.find_content.length)
  | .ADD_BEFORE =>
    C.take p ++ op.new_content.getD [] ++ ['\n'] ++ C.drop p
  | .ADD_AFTER =>
    C.take (p + op.find_content.length) ++ ['\n'] ++ op.new_content.getD [] ++
      C.drop (p + op.find_content.length)
  | .DELETE =>
    C.take p ++ C.drop (p + op.find_content.length)

/-! ## Batch applier claim -/

instance : Inhabited PatchOperation := ⟨⟨[], [], .DELETE, none⟩⟩

/-- The parser state carried by an inner-loop outcome. -/
def InnerOut.state : InnerOut → ParserState
  | .done s _ _ => s
  | .fail _ s _ _ => s

/-! ## Keyword dispatch claim (C6): corrected -/

/-- The dispatch loop as claim C6 states it: an abandoned attempt (matched
keyword, no colon) "leaves the cursor where it was before the attempt",
i.e. the next keyword is tried from the original position. -/
def tryOpRestore : List OperationType → ParserState →
    Option (OperationType × Option (List Char)) × ParserState
  | [], s => (none, s)
  | op :: rest, s =>
    match parse_keyword s op.value with
    | (true, s1) =>
      if op = .DELETE then (some (op, none), s1)
      else
        match currentC s1 with
        | some ':' =>
          let s2 := advance s1 1
          let s3 := skip_whitespace s2
          let r := parse_until s3 [nlFIND, nlFILE]
          (some (op, some (pyStrip r.1)), r.2)
        | _ => tryOpRestore rest s
    | (false, _) => tryOpRestore rest s

/-- `parse_operation` as claim C6 describes it (cursor restored on an
abandoned attempt). -/
def parse_operation_claim (s0 : ParserState) :
    Option (OperationType × Option (List Char)) × ParserState :=
  tryOpRestore operationTypeList (skip_whitespace s0)

/-- One keyword trial, as amended claim C6 describes it: failure to match
leaves the cursor unchanged; a matched keyword without the required colon
abandons the attempt with the cursor left after the consumed keyword
(`.inr` = "try the next keyword from this cursor"). -/
def tryOneKeyword (op : OperationType) (s : ParserState) :
    (Option (OperationType × Option (List Char)) × ParserState) ⊕ ParserState :=
  match parse_keyword s op.value with
  | (false, s1) => .inr s1
  | (true, s1) =>
    if op = .DELETE then .inl (some (op, none), s1)
    else
      match currentC s1 with
      | some ':' =>
        let s2 := advance s1 1
        let s3 := skip_whitespace s2
        let r := parse_until s3 [nlFIND, nlFILE]
        .inl (some (op, some (pyStrip r.1)), r.2)
      | _ => .inr s1

/-- `parse_operation` as amended: the four keywords tried in the fixed
priority order REPLACE WITH, ADD BEFORE, ADD AFTER, DELETE, each trial
continuing from the cursor the previous trial left (which, for an
abandoned colon check, is *after* the consumed keyword); a bare DELETE
match yields `(DELETE, none)`; no match yields `none` (absence, not a
failure). -/
def parse_operation_amended_spec (s0 : ParserState) :
    Option (OperationType × Option (List Char)) × ParserState :=
  match tryOneKeyword .REPLACE (skip_whitespace s0) with
  | .inl r => r
  | .inr sa =>
    match tryOneKeyword .ADD_BEFORE sa with
    | .inl r => r
    | .inr sb =>
      match tryOneKeyword .ADD_AFTER sb with
      | .inl r => r
      | .inr sc =>
        match tryOneKeyword .DELETE sc with
        | .inl r => r
        | .inr sd => (none, sd)

/-! ## Round-trip claim (C8): corrected -/

/-- Modelled from the spec: the repository has no serializer; §6 gives the
grammar, and this emits an `EditOperation` list in that grammar verbatim
(one `FILE:` block per operation, payloads written as they are, `DELETE`
bare, the other keywords with `:`). -/
def serializeOp (op : PatchOperation) : List Char :=
  "FILE: ".toList ++ op.file_path ++ "\nFIND:\n".toList ++ op.find_content ++
  ['\n'] ++
  (match op.operation with
   | .REPLACE => "REPLACE WITH:\n".toList ++ op.new_content.getD []
   | .ADD_BEFORE => "ADD BEFORE:\n".toList ++ op.new_content.getD []
   | .ADD_AFTER => "ADD AFTER:\n".toList ++ op.new_content.getD []
   | .DELETE => "DELETE".toList) ++ ['\n']

/-- Modelled from the spec: serialization of a whole operation list. -/
def serialize (l : List PatchOperation) : List Char :=
  (l.map serializeOp).join

/-- `d` does not occur as a substring of `l`. -/
def NoSub (d l : List Char) : Prop :=
  ∀ i ≤ l.length, ¬ d.isPrefixOf (l.drop i)

instance (d l : List Char) : Decidable (NoSub d l) := by
  unfold NoSub
  exact Nat.decidableBallLE _ _

/-- Round-trip side conditions on the replacement payload. -/
def ReplOK : Option (List Char) → Prop
  | none => True
  | some r => r ≠ [] ∧ pyStrip r = r ∧ NoSub nlFIND r ∧ NoSub nlFILE r

instance : (o : Option (List Char)) → Decidable (ReplOK o)
  | none => isTrue trivial
  | some r => by unfold ReplOK; exact inferInstance

/-- Side conditions under which an operation survives the
serialize-then-reparse round trip: structural well-formedness, payloads
and path trimmed and nonempty, path free of newlines / backslashes /
`FIND:`, match text free of the four operation keywords, replacement free
of the two payload delimiters. Forced by the counterexample: the parser
trims payloads and cuts them at keyword occurrences, so payloads violating
these conditions cannot be represented in the grammar. -/
def SerOK (op : PatchOperation) : Prop :=
  OpWF op ∧
  op.file_path ≠ [] ∧ pyStrip op.file_path = op.file_path ∧
  '\n' ∉ op.file_path ∧ '\\' ∉ op.file_path ∧ NoSub kwFIND op.file_path ∧
  op.find_content ≠ [] ∧ pyStrip op.find_content = op.find_content ∧
  NoSub kwREPLACEC op.find_content ∧ NoSub kwADDBC op.find_content ∧
  NoSub kwADDAC op.find_content ∧ NoSub kwDELETE op.find_content ∧
  ReplOK op.new_content

instance (op : PatchOperation) : Decidable (SerOK op) := by
  unfold SerOK
  exact inferInstance

/-- The operation portion of a serialized block (keyword, colon and
payload for the three content-bearing kinds, bare `DELETE`). -/
def opSegment (op : PatchOperation) : List Char :=
  match op.operation with
  | .REPLACE => kwREPLACEC ++ '\n' :: op.new_content.getD []
  | .ADD_BEFORE => kwADDBC ++ '\n' :: op.new_content.getD []
  | .ADD_AFTER => kwADDAC ++ '\n' :: op.new_content.getD []
  | .DELETE => kwDELETE

/-! ## Basic cursor lemmas -/

theorem advance1_content (s : ParserState) : (advance1 s).content = s.content :=
  rfl

theorem advance1_position (s : ParserState) :
    (advance1 s).position = min (s.position + 1) s.content.length := rfl

theorem advance_content : ∀ (n : Nat) (s : ParserState),
    (advance s n).content = s.content
  | 0, _ => rfl
  | n + 1, s => (advance_content n (advance1 s)).trans (advance1_content s)

theorem advance_position : ∀ (n : Nat) (s : ParserState),
    s.position ≤ s.content.length →
    (advance s n).position = min (s.position + n) s.content.length := by
  intro n
  induction n with
  | zero => intro s h; simp [advance]; omega
  | succ n ih =>
    intro s h
    show (advance (advance1 s) n).position = _
    rw [ih (advance1 s) (by rw [advance1_content, advance1_position]; omega)]
    rw [advance1_content, advance1_position]
    omega

theorem advance_line : ∀ (n : Nat) (s : ParserState),
    s.position ≤ s.content.length →
    (advance s n).line =
      s.line + ((s.content.drop s.position).take n).countP (fun c => c == '\n') := by
  intro n
  induction n with
  | zero => intro s h; simp [advance]
  | succ n ih =>
    intro s h
    show (advance (advance1 s) n).line = _
    rcases Nat.lt_or_ge s.position s.content.length with hlt | hge
    · rw [ih (advance1 s) (by rw [advance1_content, advance1_position]; omega)]
      have hdrop : s.content.drop s.position =
          s.content[s.position] :: s.content.drop (s.position + 1) :=
        List.drop_eq_getElem_cons hlt
      have hcur : currentC s = some s.content[s.position] := by
        simp [currentC, List.getElem?_eq_getElem hlt]
      have hpos1 : (advance1 s).position = s.position + 1 := by
        rw [advance1_position]; omega
      rw [advance1_content, hpos1, hdrop]
      show (if currentC s = some '\n' then s.line + 1 else s.line) + _ = _
      rw [hcur]
      rw [List.take_succ_cons, List.countP_cons]
      by_cases hnl : s.content[s.position] = '\n' <;>
        simp [hnl] <;> omega
    · have hcur : currentC s = none := by
        simp [currentC, List.getElem?_eq_none hge]
      have hline1 : (advance1 s).line = s.line := by
        simp [advance1, hcur]
      have hp1 : (advance1 s).position = s.content.length := by
        rw [advance1_position]; omega
      rw [ih (advance1 s) (by simp [advance1_content, hp1])]
      rw [advance1_content, hline1, hp1]
      have h2 : (s.content.drop s.position) = ([] : List Char) := by
        rw [List.drop_eq_nil_iff]; omega
      rw [List.drop_length, h2]
      simp

theorem peek_length (s : ParserState) (n : Nat) :
    (peek s n).length = min n (s.content.length - s.position) := by
  simp [peek]

/-- C9: every Cursor operation is total and preserves the state invariant:
from any state with `offset ≤ len(text)`, `current()` is the character at
the offset (`none` as the empty sentinel at end of text), `peek(n)` is the
next up-to-`n` characters (shorter at end of text), and `advance(n)` leaves
the offset clamped to `len(text)` and bumps `line` exactly once per newline
character passed over. (Totality is by construction: the Lean functions
are total.) -/
theorem c9_cursor_invariant (s : ParserState) (n : Nat)
    (h : s.position ≤ s.content.length) :
    (s.position = s.content.length → currentC s = none) ∧
    (∀ hlt : s.position < s.content.length,
      currentC s = some (s.content.get ⟨s.position, hlt⟩)) ∧
    peek s n = (s.content.drop s.position).take n ∧
    (peek s n).length = min n (s.content.length - s.position) ∧
    (advance s n).content = s.content ∧
    (advance s n).position = min (s.position + n) s.content.length ∧
    (advance s n).position ≤ s.content.length ∧
    (advance s n).line = s.line +
      ((s.content.drop s.position).take n).countP (fun c => c == '\n') := by
  refine ⟨?_, ?_, rfl, peek_length s n, advance_content n s,
    advance_position n s h, ?_, advance_line n s h⟩
  · intro he; simp [currentC, List.getElem?_eq_none (le_of_eq he.symm)]
  · intro hlt; simp [currentC, List.getElem?_eq_getElem hlt]
  · rw [advance_position n s h]; omega

/-- Witness for C9 at a concrete cursor state. -/
theorem c9_cursor_invariant_witness :
    (advance ⟨"a\nb".toList, 1, 1⟩ 2).position = 3 ∧
    (advance ⟨"a\nb".toList, 1, 1⟩ 2).line = 2 := by
  have h := c9_cursor_invariant ⟨"a\nb".toList, 1, 1⟩ 2 (by decide)
  refine ⟨h.2.2.2.2.2.1.trans (by decide), (h.2.2.2.2.2.2.2).trans (by decide)⟩

/-! ## Lemmas about `pyFind` (the model of Python `str.find`) -/

theorem findAux_bounds {n : List Char} : ∀ (h : List Char) (i j : Nat),
    findAux n h i = some j →
    i ≤ j ∧ j ≤ i + h.length ∧ n.isPrefixOf (h.drop (j - i)) := by
  intro h
  induction h with
  | nil =>
    intro i j hf
    unfold findAux at hf
    by_cases hp : n.isPrefixOf [] <;> simp [hp] at hf
    subst hf
    simpa using hp
  | cons c t ih =>
    intro i j hf
    unfold findAux at hf
    by_cases hp : n.isPrefixOf (c :: t)
    · simp [hp] at hf
      subst hf
      simpa using hp
    · simp [hp] at hf
      obtain ⟨h1, h2, h3⟩ := ih (i + 1) j hf
      refine ⟨by omega, by simp; omega, ?_⟩
      have hji : j - i = (j - (i + 1)) + 1 := by omega
      rw [hji, List.drop_succ_cons]
      exact h3

theorem findAux_min {n : List Char} : ∀ (h : List Char) (i j : Nat),
    findAux n h i = some j →
    ∀ k, k < j - i → ¬ n.isPrefixOf (h.drop k) := by
  intro h
  induction h with
  | nil =>
    intro i j hf k hk
    unfold findAux at hf
    by_cases hp : n.isPrefixOf [] <;> simp [hp] at hf
    omega
  | cons c t ih =>
    intro i j hf k hk
    unfold findAux at hf
    by_cases hp : n.isPrefixOf (c :: t)
    · simp [hp] at hf; omega
    · simp [hp] at hf
      match k with
      | 0 => simpa using hp
      | k + 1 =>
        rw [List.drop_succ_cons]
        exact ih (i + 1) j hf k (by omega)

theorem findAux_complete {n : List Char} : ∀ (h : List Char) (i k : Nat),
    n.isPrefixOf (h.drop k) →
    ∃ j, findAux n h i = some j ∧ j ≤ i + k := by
  intro h
  induction h with
  | nil =>
    intro i k hp
    simp at hp
    refine ⟨i, ?_, by omega⟩
    unfold findAux
    simp [hp]
  | cons c t ih =>
    intro i k hp
    by_cases hph : n.isPrefixOf (c :: t)
    · refine ⟨i, ?_, by omega⟩
      unfold findAux
      simp [hph]
    · match k with
      | 0 => exact absurd hp hph
      | k + 1 =>
        rw [List.drop_succ_cons] at hp
        obtain ⟨j, hj, hjk⟩ := ih (i + 1) k hp
        refine ⟨j, ?_, by omega⟩
        unfold findAux
        simp [hph]
        exact hj

theorem pyFind_some {C m : List Char} {s j : Nat}
    (h : pyFind C m s = some j) : s ≤ j ∧ occursAt C m j := by
  unfold pyFind at h
  by_cases hs : s ≤ C.length
  · rw [if_pos hs] at h
    obtain ⟨h1, h2, h3⟩ := findAux_bounds (C.drop s) s j h
    have hlen : (C.drop s).length = C.length - s := by simp
    rw [List.drop_drop] at h3
    have : s + (j - s) = j := by omega
    rw [this] at h3
    exact ⟨h1, ⟨by omega, h3⟩⟩
  · rw [if_neg hs] at h
    cases h

theorem pyFind_min {C m : List Char} {s j : Nat}
    (h : pyFind C m s = some j) :
    ∀ k, s ≤ k → k < j → ¬ m.isPrefixOf (C.drop k) := by
  intro k hsk hkj
  unfold pyFind at h
  by_cases hs : s ≤ C.length
  · rw [if_pos hs] at h
    have := findAux_min (C.drop s) s j h (k - s) (by omega)
    rw [List.drop_drop] at this
    have heq : s + (k - s) = k := by omega
    rw [heq] at this
    exact this
  · rw [if_neg hs] at h; cases h

theorem pyFind_complete {C m : List Char} {p : Nat}
    (hp : occursAt C m p) (s : Nat) (hs : s ≤ p) :
    ∃ j, pyFind C m s = some j ∧ s ≤ j ∧ j ≤ p := by
  have hsl : s ≤ C.length := le_trans hs hp.1
  have hpre : m.isPrefixOf ((C.drop s).drop (p - s)) := by
    rw [List.drop_drop]
    have : s + (p - s) = p := by omega
    rw [this]
    exact hp.2
  obtain ⟨j, hj, hjk⟩ := findAux_complete (C.drop s) s (p - s) hpre
  have hfind : pyFind C m s = some j := by
    unfold pyFind
    rw [if_pos hsl]
    exact hj
  exact ⟨j, hfind, (pyFind_some hfind).1, by omega⟩

theorem pyFind_eq_none {C m : List Char} {s : Nat}
    (h : ∀ p, s ≤ p → ¬ occursAt C m p) : pyFind C m s = none := by
  cases heq : pyFind C m s with
  | none => rfl
  | some j =>
    have hj := pyFind_some heq
    exact absurd hj.2 (h j hj.1)

theorem occursAt_decomp {C m : List Char} {p : Nat} (h : occursAt C m p) :
    p + m.length ≤ C.length ∧
    C = C.take p ++ m ++ C.drop (p + m.length) := by
  have hpre : m <+: C.drop p := List.isPrefixOf_iff_prefix.mp h.2
  obtain ⟨t, ht⟩ := hpre
  have hlen : (C.drop p).length = C.length - p := by simp
  have hmt : m.length + t.length = C.length - p := by
    rw [← hlen, ← ht]; simp
  have hple : p + m.length ≤ C.length := by
    have := h.1; omega
  refine ⟨hple, ?_⟩
  have hdrop2 : C.drop (p + m.length) = t := by
    have : C.drop (p + m.length) = (C.drop p).drop m.length := by
      rw [List.drop_drop]
    rw [this, ← ht, List.drop_left]
  rw [hdrop2, List.append_assoc, ht, List.take_append_drop]

theorem apply_unique_core {C : List Char} {op : PatchOperation} {p : Nat}
    (hocc : occursAt C op.find_content p)
    (huni : ∀ q ≤ C.length, occursAt C op.find_content q → q = p) :
    pyFind C op.find_content 0 = some p ∧
    pyFind C op.find_content (p + 1) = none := by
  constructor
  · obtain ⟨j, hj, _, hjp⟩ := pyFind_complete hocc 0 (Nat.zero_le p)
    have hjocc := (pyFind_some hj).2
    have := huni j hjocc.1 hjocc
    rw [this] at hj
    exact hj
  · apply pyFind_eq_none
    intro q hq hocc2
    have := huni q hocc2.1 hocc2
    omega

theorem apply_unique_ok {C : List Char} {op : PatchOperation} {p : Nat}
    (hocc : occursAt C op.find_content p)
    (huni : ∀ q ≤ C.length, occursAt C op.find_content q → q = p)
    (hwf : OpWF op) :
    apply_operation C op = .ok (applySpec C op p) := by
  obtain ⟨h1, h2⟩ := apply_unique_core hocc huni
  cases hop : op.operation
  case DELETE => simp [apply_operation, h1, h2, applySpec, hop]
  all_goals {
    have hne : op.operation ≠ .DELETE := by rw [hop]; intro h; cases h
    obtain ⟨r, hr⟩ := Option.isSome_iff_exists.mp (hwf.2 hne)
    simp [apply_operation, h1, h2, applySpec, hop, hr]
  }

/-- C1: on a unique exact match at position `p`, `apply_operation` succeeds
and returns exactly the rewrite the spec describes, and the length of the
result differs from the input by `len(replacement) - len(match)` (REPLACE),
`+len(replacement)+1` (ADD_BEFORE / ADD_AFTER), or `-len(match)` (DELETE);
the length equations are stated additively to stay in `Nat`. -/
theorem c1_apply_unique_match (C : List Char) (op : PatchOperation) (p : Nat)
    (hocc : occursAt C op.find_content p)
    (huni : ∀ q ≤ C.length, occursAt C op.find_content q → q = p)
    (hwf : OpWF op) :
    apply_operation C op = .ok (applySpec C op p) ∧
    (op.operation = .REPLACE →
      (applySpec C op p).length + op.find_content.length =
        C.length + (op.new_content.getD []).length) ∧
    (op.operation = .ADD_BEFORE →
      (applySpec C op p).length =
        C.length + (op.new_content.getD []).length + 1) ∧
    (op.operation = .ADD_AFTER →
      (applySpec C op p).length =
        C.length + (op.new_content.getD []).length + 1) ∧
    (op.operation = .DELETE →
      (applySpec C op p).length + op.find_content.length = C.length) := by
  have hple := (occursAt_decomp hocc).1
  have hp := hocc.1
  refine ⟨apply_unique_ok hocc huni hwf, ?_, ?_, ?_, ?_⟩ <;>
    intro hop <;>
    simp [applySpec, hop, List.length_append, List.length_take,
      List.length_drop] <;>
    omega

/-- Witness for C1: a REPLACE with a unique match, applied concretely. -/
theorem c1_apply_unique_match_witness :
    apply_operation "abc".toList
      ⟨"t".toList, "b".toList, .REPLACE, some "XY".toList⟩ =
    .ok (applySpec "abc".toList
      ⟨"t".toList, "b".toList, .REPLACE, some "XY".toList⟩ 1) :=
  (c1_apply_unique_match "abc".toList
    ⟨"t".toList, "b".toList, .REPLACE, some "XY".toList⟩ 1
    (by decide) (by decide) (by decide)).1

theorem occCount_eq_zero {C m : List Char} (h : occCount C m = 0) :
    ∀ p, ¬ occursAt C m p := by
  intro p hp
  have hmem : p ∈ List.range (C.length + 1) := by
    rw [List.mem_range]
    have := hp.1
    omega
  have := List.countP_eq_zero.mp h p hmem
  simp at this
  exact this hp

theorem occCount_one {C m : List Char} (h : occCount C m = 1) :
    ∃ p, occursAt C m p ∧ ∀ q ≤ C.length, occursAt C m q → q = p := by
  unfold occCount at h
  rw [List.countP_eq_length_filter] at h
  obtain ⟨a, ha⟩ := List.length_eq_one.mp h
  have hmema : a ∈ (List.range (C.length + 1)).filter
      (fun p => decide (occursAt C m p)) := by
    rw [ha]; exact List.mem_singleton_self a
  have hocca : occursAt C m a := by
    have := List.of_mem_filter hmema
    simpa using this
  refine ⟨a, hocca, ?_⟩
  intro q hq hoccq
  have hmemq : q ∈ (List.range (C.length + 1)).filter
      (fun p => decide (occursAt C m p)) := by
    rw [List.mem_filter]
    exact ⟨List.mem_range.mpr (by omega), by simpa using hoccq⟩
  rw [ha] at hmemq
  simpa using hmemq

theorem occCount_two {C m : List Char} (h : 2 ≤ occCount C m) :
    ∃ p q, p < q ∧ occursAt C m p ∧ occursAt C m q := by
  unfold occCount at h
  rw [List.countP_eq_length_filter] at h
  have hnd : ((List.range (C.length + 1)).filter
      (fun p => decide (occursAt C m p))).Nodup :=
    List.Nodup.filter _ (List.nodup_range _)
  match hl : (List.range (C.length + 1)).filter
      (fun p => decide (occursAt C m p)) with
  | [] => rw [hl] at h; simp at h
  | [a] => rw [hl] at h; simp at h
  | a :: b :: t =>
    rw [hl] at hnd
    have hne : a ≠ b := by
      intro hab
      have := List.nodup_cons.mp hnd
      exact this.1 (hab ▸ List.mem_cons_self b t)
    have hocca : occursAt C m a := by
      have : a ∈ (List.range (C.length + 1)).filter
          (fun p => decide (occursAt C m p)) := by
        rw [hl]; exact List.mem_cons_self _ _
      simpa using List.of_mem_filter this
    have hoccb : occursAt C m b := by
      have : b ∈ (List.range (C.length + 1)).filter
          (fun p => decide (occursAt C m p)) := by
        rw [hl]; exact List.mem_cons_of_mem _ (List.mem_cons_self _ _)
      simpa using List.of_mem_filter this
    rcases Nat.lt_or_ge a b with hab | hab
    · exact ⟨a, b, hab, hocca, hoccb⟩
    · exact ⟨b, a, by omega, hoccb, hocca⟩

theorem apply_multiple {C : List Char} {op : PatchOperation}
    (h : 2 ≤ occCount C op.find_content) :
    apply_operation C op =
      .error (.valueError "Context appears multiple times in file") := by
  obtain ⟨p, q, hpq, hp, hq⟩ := occCount_two h
  obtain ⟨r, hr, _, hrp⟩ := pyFind_complete hp 0 (Nat.zero_le p)
  have hqr : r < q := by
    rcases Nat.lt_or_ge r q with h1 | h1
    · exact h1
    · exfalso
      rcases Nat.lt_or_ge q r with h2 | h2
      · exact pyFind_min hr q (Nat.zero_le q) h2 hq.2
      · omega
  obtain ⟨j, hj, _, _⟩ := pyFind_complete hq (r + 1) (by omega)
  simp [apply_operation, hr, hj]

/-- C2: `apply_operation` fails exactly when the match text does not occur
exactly once: zero occurrences give "Context not found in file", two or
more (counting overlapping occurrences) give "Context appears multiple
times in file", and a unique occurrence succeeds. The content is a value,
never mutated, so it is trivially unchanged on failure. -/
theorem c2_apply_failure_modes (C : List Char) (op : PatchOperation)
    (hwf : OpWF op) :
    (occCount C op.find_content = 0 →
      apply_operation C op = .error (.valueError "Context not found in file")) ∧
    (2 ≤ occCount C op.find_content →
      apply_operation C op =
        .error (.valueError "Context appears multiple times in file")) ∧
    (occCount C op.find_content = 1 →
      ∃ D, apply_operation C op = .ok D) ∧
    ((∃ e, apply_operation C op = .error e) ↔ occCount C op.find_content ≠ 1) := by
  have hzero : occCount C op.find_content = 0 →
      apply_operation C op = .error (.valueError "Context not found in file") := by
    intro h
    have hnone : pyFind C op.find_content 0 = none :=
      pyFind_eq_none (fun p _ => occCount_eq_zero h p)
    simp [apply_operation, hnone]
  have hone : occCount C op.find_content = 1 →
      ∃ D, apply_operation C op = .ok D := by
    intro h
    obtain ⟨p, hocc, huni⟩ := occCount_one h
    exact ⟨applySpec C op p, apply_unique_ok hocc huni hwf⟩
  refine ⟨hzero, fun h => apply_multiple h, hone, ?_⟩
  constructor
  · rintro ⟨e, he⟩ hcnt
    obtain ⟨D, hD⟩ := hone hcnt
    rw [hD] at he
    cases he
  · intro hne
    rcases Nat.lt_or_ge (occCount C op.find_content) 2 with hlt | hge
    · have : occCount C op.find_content = 0 := by omega
      exact ⟨_, hzero this⟩
    · exact ⟨_, apply_multiple hge⟩

/-- Witness for C2: the "not found" branch at a concrete input. -/
theorem c2_apply_failure_modes_witness :
    apply_operation "abc".toList ⟨"t".toList, "zz".toList, .DELETE, none⟩ =
      .error (.valueError "Context not found in file") :=
  (c2_apply_failure_modes "abc".toList
    ⟨"t".toList, "zz".toList, .DELETE, none⟩ (by decide)).1 (by decide)

theorem apply_no_typeError {C : List Char} {op : PatchOperation}
    (hwf : OpWF op) : apply_operation C op ≠ .error .typeError := by
  intro h
  cases hf1 : pyFind C op.find_content 0 with
  | none => simp [apply_operation, hf1] at h
  | some fi =>
    cases hf2 : pyFind C op.find_content (fi + 1) with
    | some j => simp [apply_operation, hf1, hf2] at h
    | none =>
      cases hop : op.operation
      case DELETE => simp [apply_operation, hf1, hf2, hop] at h
      all_goals {
        have hne : op.operation ≠ .DELETE := by rw [hop]; intro hx; cases hx
        obtain ⟨r, hr⟩ := Option.isSome_iff_exists.mp (hwf.2 hne)
        simp [apply_operation, hf1, hf2, hop, hr] at h
      }

theorem applyLoop_ok {orig : List Char} :
    ∀ (ops : List PatchOperation) (cur : List Char) (i : Nat) (D : List Char),
    chainApply cur ops = .ok D → applyLoop orig cur ops i = .ok (D, []) := by
  intro ops
  induction ops with
  | nil =>
    intro cur i D h
    unfold chainApply at h
    cases h
    rfl
  | cons op rest ih =>
    intro cur i D h
    unfold chainApply at h
    unfold applyLoop
    cases happ : apply_operation cur op with
    | ok c =>
      rw [happ] at h
      exact ih c (i + 1) D h
    | error e =>
      rw [happ] at h
      cases h

theorem applyLoop_err {orig : List Char} :
    ∀ (ops : List PatchOperation) (cur : List Char) (i : Nat) (e : PyErr),
    (∀ op ∈ ops, OpWF op) → chainApply cur ops = .error e →
    ∃ j m cj, j < ops.length ∧ e = .valueError m ∧
      chainApply cur (ops.take j) = .ok cj ∧
      apply_operation cj (ops.getD j default) = .error e ∧
      applyLoop orig cur ops i =
        .ok (orig, [⟨(ops.getD j default).file_path, m, ((i + j : Nat) : Int)⟩]) := by
  intro ops
  induction ops with
  | nil =>
    intro cur i e _ h
    unfold chainApply at h
    cases h
  | cons op rest ih =>
    intro cur i e hwf h
    unfold chainApply at h
    cases happ : apply_operation cur op with
    | error e0 =>
      rw [happ] at h
      cases h
      cases e with
      | typeError =>
        exact absurd happ (apply_no_typeError (hwf op (List.mem_cons_self _ _)))
      | valueError m =>
        refine ⟨0, m, cur, by simp, rfl, rfl, happ, ?_⟩
        unfold applyLoop
        rw [happ]
        simp
    | ok c =>
      rw [happ] at h
      obtain ⟨j, m, cj, hjl, hem, hchain, happj, hloop⟩ :=
        ih c (i + 1) e (fun o ho => hwf o (List.mem_cons_of_mem _ ho)) h
      refine ⟨j + 1, m, cj, by simp; omega, hem, ?_, ?_, ?_⟩
      · rw [List.take_succ_cons]
        unfold chainApply
        rw [happ]
        exact hchain
      · simpa using happj
      · unfold applyLoop
        rw [happ]
        have : i + (j + 1) = i + 1 + j := by omega
        rw [this]
        simpa using hloop

/-- C3: `apply_operations_to_content` folds the operations left to right
(the fold being `chainApply`); if every operation succeeds it returns the
fully transformed content with an empty error list, and if some operation
fails it returns exactly the original content together with exactly one
error whose index is the zero-based index of the first failing operation
(the operations before it form a succeeding chain). Operations are
well-formed per the data-model invariant. -/
theorem c3_batch_all_or_nothing (C : List Char) (L : List PatchOperation)
    (hwf : ∀ op ∈ L, OpWF op) :
    (∀ D, chainApply C L = .ok D →
      apply_operations_to_content C L = .ok (D, [])) ∧
    (∀ e, chainApply C L = .error e →
      ∃ j m cj, j < L.length ∧ e = .valueError m ∧
        chainApply C (L.take j) = .ok cj ∧
        apply_operation cj (L.getD j default) = .error e ∧
        apply_operations_to_content C L =
          .ok (C, [⟨(L.getD j default).file_path, m, (j : Int)⟩])) := by
  constructor
  · intro D h
    exact applyLoop_ok L C 0 D h
  · intro e h
    obtain ⟨j, m, cj, hjl, hem, hchain, happj, hloop⟩ :=
      applyLoop_err L C 0 e hwf h
    refine ⟨j, m, cj, hjl, hem, hchain, happj, ?_⟩
    simpa using hloop

/-- Witness for C3: a fully succeeding one-operation batch. -/
theorem c3_batch_all_or_nothing_witness :
    apply_operations_to_content "ab".toList
      [⟨"f".toList, "a".toList, .REPLACE, some "x".toList⟩] =
    .ok ("xb".toList, []) :=
  (c3_batch_all_or_nothing "ab".toList
    [⟨"f".toList, "a".toList, .REPLACE, some "x".toList⟩]
    (by decide)).1 "xb".toList (by decide)

/-! ## Empty match text claim -/

/-- C7: an operation whose `match_text` is empty after trimming is not
rejected at parse time — the concrete script parses to a DELETE operation
with empty `find_content` and no parse errors — and at apply time the
first `find` step of `apply_operation` matches such an operation trivially
at position 0 of any content. -/
theorem c7_empty_match_text :
    parse_patch_file ("FILE: a.py\nFIND:\nDELETE\n".toList) =
      some ([⟨"a.py".toList, [], .DELETE, none⟩], []) ∧
    ∀ C : List Char, pyFind C [] 0 = some 0 := by
  constructor
  · decide
  · intro C
    unfold pyFind
    rw [if_pos (Nat.zero_le _)]
    unfold findAux
    simp

/-! ## Parser helper lemmas: content preservation, bounds, progress -/

theorem skipWsCount_le : ∀ l : List Char, skipWsCount l ≤ l.length := by
  intro l
  induction l with
  | nil => simp [skipWsCount]
  | cons c t ih =>
    unfold skipWsCount
    by_cases h : pyIsSpace c <;> simp [h] <;> omega

theorem untilCount_le (ds : List (List Char)) :
    ∀ l : List Char, untilCount ds l ≤ l.length := by
  intro l
  induction l with
  | nil => simp [untilCount]
  | cons c t ih =>
    unfold untilCount
    by_cases h : ds.any (fun d => d.isPrefixOf (c :: t)) <;> simp [h] <;> omega

theorem sw_content (s : ParserState) :
    (skip_whitespace s).content = s.content :=
  advance_content _ _

theorem sw_position (s : ParserState) (h : s.position ≤ s.content.length) :
    (skip_whitespace s).position =
      s.position + skipWsCount (s.content.drop s.position) := by
  unfold skip_whitespace
  rw [advance_position _ _ h]
  have h1 := skipWsCount_le (s.content.drop s.position)
  rw [List.length_drop] at h1
  omega

theorem sw_position_le (s : ParserState) (h : s.position ≤ s.content.length) :
    (skip_whitespace s).position ≤ s.content.length := by
  rw [sw_position s h]
  have h1 := skipWsCount_le (s.content.drop s.position)
  rw [List.length_drop] at h1
  omega

theorem sw_position_ge (s : ParserState) (h : s.position ≤ s.content.length) :
    s.position ≤ (skip_whitespace s).position := by
  rw [sw_position s h]; omega

theorem pu_content (s : ParserState) (ds : List (List Char)) :
    ((parse_until s ds).2).content = s.content :=
  advance_content _ _

theorem pu_position (s : ParserState) (ds : List (List Char))
    (h : s.position ≤ s.content.length) :
    ((parse_until s ds).2).position =
      s.position + untilCount ds (s.content.drop s.position) := by
  show (advance s _).position = _
  rw [advance_position _ _ h]
  have h1 := untilCount_le ds (s.content.drop s.position)
  rw [List.length_drop] at h1
  omega

theorem pu_position_le (s : ParserState) (ds : List (List Char))
    (h : s.position ≤ s.content.length) :
    ((parse_until s ds).2).position ≤ s.content.length := by
  rw [pu_position s ds h]
  have h1 := untilCount_le ds (s.content.drop s.position)
  rw [List.length_drop] at h1
  omega

theorem pu_position_ge (s : ParserState) (ds : List (List Char))
    (h : s.position ≤ s.content.length) :
    s.position ≤ ((parse_until s ds).2).position := by
  rw [pu_position s ds h]; omega

theorem peek_keyword_iff (s : ParserState) (k : List Char) :
    (peek s k.length == k) = true ↔
      k.isPrefixOf (s.content.drop s.position) = true := by
  simp only [peek, beq_iff_eq, List.isPrefixOf_iff_prefix,
    List.prefix_iff_eq_take]
  exact eq_comm

theorem pk_true {s : ParserState} {k : List Char}
    (hp : k.isPrefixOf (s.content.drop s.position)) :
    parse_keyword s k = (true, advance s k.length) := by
  unfold parse_keyword
  rw [if_pos ((peek_keyword_iff s k).mpr hp)]

theorem pk_false {s : ParserState} {k : List Char}
    (hp : ¬ k.isPrefixOf (s.content.drop s.position)) :
    parse_keyword s k = (false, s) := by
  unfold parse_keyword
  rw [if_neg ?hc]
  case hc =>
    intro hcontra
    exact hp ((peek_keyword_iff s k).mp hcontra)

theorem isPrefixOf_length {k l : List Char} (h : k.isPrefixOf l) :
    k.length ≤ l.length :=
  (List.isPrefixOf_iff_prefix.mp h).length_le

theorem prefix_drop_bound {s : ParserState} {k : List Char}
    (h : s.position ≤ s.content.length)
    (hp : k.isPrefixOf (s.content.drop s.position)) :
    s.position + k.length ≤ s.content.length := by
  have h1 := isPrefixOf_length hp
  rw [List.length_drop] at h1
  omega

theorem pk_state (s : ParserState) (k : List Char)
    (h : s.position ≤ s.content.length) :
    ((parse_keyword s k).2).content = s.content ∧
    s.position ≤ ((parse_keyword s k).2).position ∧
    ((parse_keyword s k).2).position ≤ s.content.length ∧
    ((parse_keyword s k).1 = true →
      ((parse_keyword s k).2).position = s.position + k.length) := by
  by_cases hp : k.isPrefixOf (s.content.drop s.position)
  · rw [pk_true hp]
    have hb := prefix_drop_bound h hp
    refine ⟨advance_content _ _, ?_, ?_, ?_⟩ <;>
      rw [advance_position _ _ h] <;> omega
  · rw [pk_false hp]
    exact ⟨rfl, le_refl _, h, by intro hc; cases hc⟩

theorem pfb_state (s : ParserState) (h : s.position ≤ s.content.length) :
    match parse_find_block s with
    | .ok (_, s2) => s2.content = s.content ∧
        s2.position ≤ s.content.length ∧ s.position + 5 ≤ s2.position
    | .error (_, sE) => sE.content = s.content ∧
        sE.position ≤ s.content.length ∧ s.position ≤ sE.position := by
  unfold parse_find_block
  dsimp only
  set s1 := skip_whitespace s with hs1
  have h1c : s1.content = s.content := sw_content s
  have h1le : s1.position ≤ s1.content.length := by
    rw [h1c]; exact sw_position_le s h
  have h1ge : s.position ≤ s1.position := sw_position_ge s h
  by_cases hp : kwFIND.isPrefixOf (s1.content.drop s1.position)
  · rw [pk_true hp]
    have hb := prefix_drop_bound h1le hp
    set s2 := advance s1 kwFIND.length with hs2
    have h2c : s2.content = s1.content := advance_content _ _
    have h2pos : s2.position = s1.position + kwFIND.length := by
      rw [hs2, advance_position _ _ h1le]; omega
    have h2le : s2.position ≤ s2.content.length := by
      rw [h2c, h2pos]; exact hb
    have h3c : (skip_whitespace s2).content = s2.content := sw_content s2
    have h3le : (skip_whitespace s2).position ≤ (skip_whitespace s2).content.length := by
      rw [h3c]; exact sw_position_le s2 h2le
    have h3ge : s2.position ≤ (skip_whitespace s2).position := sw_position_ge s2 h2le
    have h4c := pu_content (skip_whitespace s2) [kwREPLACEC, kwADDBC, kwADDAC, kwDELETE]
    have h4le := pu_position_le (skip_whitespace s2) [kwREPLACEC, kwADDBC, kwADDAC, kwDELETE] h3le
    have h4ge := pu_position_ge (skip_whitespace s2) [kwREPLACEC, kwADDBC, kwADDAC, kwDELETE] h3le
    refine ⟨by rw [h4c, h3c, h2c, h1c], ?_, ?_⟩
    · rw [← h1c, ← h2c, ← h3c]; exact h4le
    · have : kwFIND.length = 5 := rfl
      omega
  · rw [pk_false hp]
    exact ⟨h1c, by rw [← h1c]; exact h1le, h1ge⟩

theorem pfd_state (s : ParserState) (h : s.position ≤ s.content.length) :
    match parse_file_directive s with
    | .ok (_, s2) => s2.content = s.content ∧
        s2.position ≤ s.content.length ∧ s.position + 5 ≤ s2.position
    | .error (_, sE) => sE.content = s.content ∧
        sE.position ≤ s.content.length ∧ s.position ≤ sE.position := by
  unfold parse_file_directive
  dsimp only
  set s1 := skip_whitespace s with hs1
  have h1c : s1.content = s.content := sw_content s
  have h1le : s1.position ≤ s1.content.length := by
    rw [h1c]; exact sw_position_le s h
  have h1ge : s.position ≤ s1.position := sw_position_ge s h
  by_cases hp : kwFILE.isPrefixOf (s1.content.drop s1.position)
  · rw [pk_true hp]
    have hb := prefix_drop_bound h1le hp
    set s2 := advance s1 kwFILE.length with hs2
    have h2c : s2.content = s1.content := advance_content _ _
    have h2pos : s2.position = s1.position + kwFILE.length := by
      rw [hs2, advance_position _ _ h1le]; omega
    have h2le : s2.position ≤ s2.content.length := by
      rw [h2c, h2pos]; exact hb
    have h4c := pu_content s2 [kwFIND, ['\n']]
    have h4le := pu_position_le s2 [kwFIND, ['\n']] h2le
    have h4ge := pu_position_ge s2 [kwFIND, ['\n']] h2le
    have hkl : kwFILE.length = 5 := rfl
    by_cases hemp : (pyStrip (parse_until s2 [kwFIND, ['\n']]).1).isEmpty
    · simp only [hemp, if_true]
      refine ⟨by rw [h4c, h2c, h1c], ?_, ?_⟩
      · rw [← h1c, ← h2c]; exact h4le
      · omega
    · simp only [hemp, if_false]
      refine ⟨by rw [h4c, h2c, h1c], ?_, ?_⟩
      · rw [← h1c, ← h2c]; exact h4le
      · omega
  · rw [pk_false hp]
    exact ⟨h1c, by rw [← h1c]; exact h1le, h1ge⟩

theorem pu_no_first_delim {s : ParserState} {ds : List (List Char)}
    (h : s.position ≤ s.content.length)
    (hnp : ¬ ds.any (fun d => d.isPrefixOf (s.content.drop s.position)) = true) :
    s.position < ((parse_until s ds).2).position ∨
      ((parse_until s ds).2).position = s.content.length := by
  rw [pu_position s ds h]
  cases hd : s.content.drop s.position with
  | nil =>
    right
    unfold untilCount
    have : s.content.length - s.position = 0 := by
      have := congrArg List.length hd
      rw [List.length_drop] at this
      simpa using this
    omega
  | cons c t =>
    left
    rw [hd] at hnp
    have hstep : untilCount ds (c :: t) = untilCount ds t + 1 := by
      simp only [untilCount]
      rw [if_neg hnp]
    rw [hstep]
    omega

theorem pfd_recovery (s : ParserState) (m : String) (sE : ParserState)
    (h : s.position ≤ s.content.length)
    (he : parse_file_directive s = .error (m, sE)) :
    ((parse_until sE [kwFILE]).2).content = s.content ∧
    ((parse_until sE [kwFILE]).2).position ≤ s.content.length ∧
    s.position ≤ ((parse_until sE [kwFILE]).2).position ∧
    (s.position < ((parse_until sE [kwFILE]).2).position ∨
      ((parse_until sE [kwFILE]).2).position = s.content.length) := by
  unfold parse_file_directive at he
  dsimp only at he
  set s1 := skip_whitespace s with hs1
  have h1c : s1.content = s.content := sw_content s
  have h1le : s1.position ≤ s1.content.length := by
    rw [h1c]; exact sw_position_le s h
  have h1ge : s.position ≤ s1.position := sw_position_ge s h
  by_cases hp : kwFILE.isPrefixOf (s1.content.drop s1.position)
  · rw [pk_true hp] at he
    have hb := prefix_drop_bound h1le hp
    set s2 := advance s1 kwFILE.length with hs2
    have h2c : s2.content = s1.content := advance_content _ _
    have h2pos : s2.position = s1.position + kwFILE.length := by
      rw [hs2, advance_position _ _ h1le]; omega
    have h2le : s2.position ≤ s2.content.length := by
      rw [h2c, h2pos]; exact hb
    have h4c := pu_content s2 [kwFIND, ['\n']]
    have h4le := pu_position_le s2 [kwFIND, ['\n']] h2le
    have h4ge := pu_position_ge s2 [kwFIND, ['\n']] h2le
    have hkl : kwFILE.length = 5 := rfl
    by_cases hemp : (pyStrip (parse_until s2 [kwFIND, ['\n']]).1).isEmpty
    · simp only [hemp, if_true] at he
      injection he with hpair
      have hse : (parse_until s2 [kwFIND, ['\n']]).2 = sE := by
        have := congrArg Prod.snd hpair; simpa using this
      subst hse
      have hEc : (parse_until s2 [kwFIND, ['\n']]).2.content = s.content := by
        rw [h4c, h2c, h1c]
      have hEle : (parse_until s2 [kwFIND, ['\n']]).2.position ≤ s.content.length := by
        rw [← h1c, ← h2c]; exact h4le
      have hEge : s.position + 5 ≤ (parse_until s2 [kwFIND, ['\n']]).2.position := by
        omega
      have hrec_le := pu_position_le (parse_until s2 [kwFIND, ['\n']]).2 [kwFILE]
        (by rw [hEc]; exact hEle)
      have hrec_ge := pu_position_ge (parse_until s2 [kwFIND, ['\n']]).2 [kwFILE]
        (by rw [hEc]; exact hEle)
      have hrec_c := pu_content (parse_until s2 [kwFIND, ['\n']]).2 [kwFILE]
      refine ⟨by rw [hrec_c, hEc], by rw [← hEc]; exact hrec_le, by omega, ?_⟩
      left
      omega
    · simp only [hemp, if_false] at he
      cases he
  · rw [pk_false hp] at he
    injection he with hpair
    have hse : s1 = sE := by
      have := congrArg Prod.snd hpair; simpa using this
    subst hse
    have hnone : ¬ ([kwFILE].any (fun d => d.isPrefixOf (s1.content.drop s1.position))) = true := by
      simpa using hp
    have hfirst := pu_no_first_delim h1le hnone
    have hrec_le := pu_position_le s1 [kwFILE] h1le
    have hrec_ge := pu_position_ge s1 [kwFILE] h1le
    have hrec_c := pu_content s1 [kwFILE]
    refine ⟨by rw [hrec_c, h1c], by rw [← h1c]; exact hrec_le, by omega, ?_⟩
    rcases hfirst with h5 | h5
    · left; omega
    · right; rw [← h1c]; omega

theorem tryOp_state : ∀ (l : List OperationType) (s : ParserState),
    s.position ≤ s.content.length →
    ((tryOp l s).2).content = s.content ∧
    ((tryOp l s).2).position ≤ s.content.length ∧
    s.position ≤ ((tryOp l s).2).position := by
  intro l
  induction l with
  | nil => intro s h; exact ⟨rfl, h, le_refl _⟩
  | cons op rest ih =>
    intro s h
    by_cases hp : (op.value).isPrefixOf (s.content.drop s.position)
    · have hb := prefix_drop_bound h hp
      have hstep : tryOp (op :: rest) s =
          (match advance s op.value.length with
           | s1 =>
            if op = .DELETE then (some (op, none), s1)
            else
              match currentC s1 with
              | some ':' =>
                let s2 := advance s1 1
                let s3 := skip_whitespace s2
                let r := parse_until s3 [nlFIND, nlFILE]
                (some (op, some (pyStrip r.1)), r.2)
              | _ => tryOp rest s1) := by
        simp only [tryOp]
        rw [pk_true hp]
      rw [hstep]
      dsimp only
      set s1 := advance s op.value.length with hs1
      have h1c : s1.content = s.content := advance_content _ _
      have h1pos : s1.position = s.position + op.value.length := by
        rw [hs1, advance_position _ _ h]; omega
      have h1le : s1.position ≤ s1.content.length := by
        rw [h1c, h1pos]; exact hb
      by_cases hD : op = .DELETE
      · simp only [hD, if_true]
        exact ⟨h1c, by rw [← h1c]; exact h1le, by omega⟩
      · simp only [hD, if_false]
        split
        · dsimp only
          have h2c : (advance s1 1).content = s1.content := advance_content _ _
          have h2pos : (advance s1 1).position = min (s1.position + 1) s1.content.length :=
            advance_position _ _ h1le
          have h2le : (advance s1 1).position ≤ (advance s1 1).content.length := by
            rw [h2c, h2pos]; omega
          have h3c : (skip_whitespace (advance s1 1)).content = (advance s1 1).content :=
            sw_content _
          have h3le : (skip_whitespace (advance s1 1)).position ≤
              (skip_whitespace (advance s1 1)).content.length := by
            rw [h3c]; exact sw_position_le _ h2le
          have h3ge : (advance s1 1).position ≤ (skip_whitespace (advance s1 1)).position :=
            sw_position_ge _ h2le
          have h4c := pu_content (skip_whitespace (advance s1 1)) [nlFIND, nlFILE]
          have h4le := pu_position_le (skip_whitespace (advance s1 1)) [nlFIND, nlFILE] h3le
          have h4ge := pu_position_ge (skip_whitespace (advance s1 1)) [nlFIND, nlFILE] h3le
          refine ⟨by rw [h4c, h3c, h2c, h1c], ?_, ?_⟩
          · rw [← h1c, ← h2c, ← h3c]; exact h4le
          · have : s.position ≤ s1.position := by omega
            omega
        · obtain ⟨ha, hb2, hc⟩ := ih s1 h1le
          rw [h1c] at ha hb2
          exact ⟨ha, hb2, by omega⟩
    · have hstep : tryOp (op :: rest) s = tryOp rest s := by
        simp only [tryOp]
        rw [pk_false hp]
      rw [hstep]
      exact ih s h

theorem parse_operation_state (s : ParserState)
    (h : s.position ≤ s.content.length) :
    ((parse_operation s).2).content = s.content ∧
    ((parse_operation s).2).position ≤ s.content.length ∧
    s.position ≤ ((parse_operation s).2).position := by
  unfold parse_operation
  have h1c : (skip_whitespace s).content = s.content := sw_content s
  have h1le : (skip_whitespace s).position ≤ (skip_whitespace s).content.length := by
    rw [h1c]; exact sw_position_le s h
  have h1ge : s.position ≤ (skip_whitespace s).position := sw_position_ge s h
  obtain ⟨ha, hb, hc⟩ := tryOp_state operationTypeList (skip_whitespace s) h1le
  rw [h1c] at ha hb
  exact ⟨ha, hb, by omega⟩

theorem innerLoop_some : ∀ (fuel : Nat) (path : List Char) (s : ParserState)
    (ops : List PatchOperation) (idx : Nat),
    s.position ≤ s.content.length →
    s.content.length + 1 - s.position ≤ fuel →
    ∃ out, innerLoop fuel path s ops idx = some out ∧
      out.state.content = s.content ∧
      out.state.position ≤ s.content.length ∧
      s.position ≤ out.state.position := by
  intro fuel
  induction fuel with
  | zero => intro path s ops idx hI hf; omega
  | succ fuel ih =>
    intro path s ops idx hI hf
    simp only [innerLoop]
    by_cases hpos : s.position < s.content.length
    · rw [if_pos hpos]
      by_cases hbrk : (decide (wsScan s.content s.position < s.content.length) &&
          kwFILE.isPrefixOf (s.content.drop (wsScan s.content s.position))) = true
      · rw [if_pos hbrk]
        exact ⟨.done s ops idx, rfl, rfl, hI, le_refl _⟩
      · rw [if_neg hbrk]
        have hfb := pfb_state s hI
        cases hfbe : parse_find_block s with
        | error me =>
          obtain ⟨m, sE⟩ := me
          rw [hfbe] at hfb
          obtain ⟨hc, hle, hge⟩ := hfb
          exact ⟨.fail m sE ops idx, rfl, hc, hle, hge⟩
        | ok fs =>
          obtain ⟨fc, s1⟩ := fs
          dsimp only
          rw [hfbe] at hfb
          obtain ⟨h1c, h1le, h1ge⟩ := hfb
          have h1le' : s1.position ≤ s1.content.length := by rw [h1c]; exact h1le
          obtain ⟨h2c, h2le, h2ge⟩ := parse_operation_state s1 h1le'
          cases hope : parse_operation s1 with
          | mk oRes s2 =>
            rw [hope] at h2c h2le h2ge
            dsimp only at h2c h2le h2ge
            have h2c' : s2.content = s.content := by rw [h2c, h1c]
            have h2le' : s2.position ≤ s.content.length := by rw [← h1c]; exact h2le
            cases oRes with
            | none =>
              exact ⟨.fail ("Expected operation at line " ++ Nat.repr s2.line) s2 ops idx,
                rfl, h2c', h2le', by show s.position ≤ s2.position; omega⟩
            | some pr =>
              obtain ⟨ot, nc⟩ := pr
              have h2le2 : s2.position ≤ s2.content.length := by rw [h2c']; exact h2le'
              have hswc : (skip_whitespace s2).content = s2.content := sw_content s2
              have hswle : (skip_whitespace s2).position ≤ (skip_whitespace s2).content.length := by
                rw [hswc]; exact sw_position_le s2 h2le2
              have hswge : s2.position ≤ (skip_whitespace s2).position := sw_position_ge s2 h2le2
              have hbound : (skip_whitespace s2).content.length + 1 - (skip_whitespace s2).position ≤ fuel := by
                rw [hswc, h2c']
                omega
              obtain ⟨out, hout, hoc, hole, hoge⟩ :=
                ih path (skip_whitespace s2) (ops ++ [⟨path, fc, ot, nc⟩]) (idx + 1) hswle hbound
              refine ⟨out, hout, ?_, ?_, ?_⟩
              · rw [hoc, hswc, h2c']
              · rw [← h2c', ← hswc]; exact hole
              · omega
    · rw [if_neg hpos]
      exact ⟨.done s ops idx, rfl, rfl, hI, le_refl _⟩

theorem outerLoop_some : ∀ (fuel : Nat) (s : ParserState)
    (ops : List PatchOperation) (errs : List Error) (idx : Nat)
    (lp : Option (List Char)),
    s.position ≤ s.content.length →
    s.content.length + 2 - s.position ≤ fuel →
    ∃ r, outerLoop fuel s ops errs idx lp = some r := by
  intro fuel
  induction fuel with
  | zero => intro s ops errs idx lp hI hf; omega
  | succ fuel ih =>
    intro s ops errs idx lp hI hf
    simp only [outerLoop]
    by_cases hpos : s.position < s.content.length
    · rw [if_pos hpos]
      have hfd := pfd_state s hI
      cases hfde : parse_file_directive s with
      | error me =>
        obtain ⟨m, sE⟩ := me
        have hrec := pfd_recovery s m sE hI hfde
        obtain ⟨hrc, hrle, hrge, hprog⟩ := hrec
        rcases hprog with hstrict | hend
        · have := ih (parse_until sE [kwFILE]).2 ops
            (errs ++ [⟨pathName lp, m, (idx : Int)⟩]) idx lp
            (by rw [hrc]; exact hrle)
            (by rw [hrc]; omega)
          obtain ⟨r, hr⟩ := this
          exact ⟨r, hr⟩
        · have := ih (parse_until sE [kwFILE]).2 ops
            (errs ++ [⟨pathName lp, m, (idx : Int)⟩]) idx lp
            (by rw [hrc]; exact hrle)
            (by rw [hrc, hend]; omega)
          obtain ⟨r, hr⟩ := this
          exact ⟨r, hr⟩
      | ok fs =>
        obtain ⟨fp, s1⟩ := fs
        dsimp only
        rw [hfde] at hfd
        obtain ⟨h1c, h1le, h1ge⟩ := hfd
        have h1le' : s1.position ≤ s1.content.length := by rw [h1c]; exact h1le
        have hinner := innerLoop_some (s.content.length + 2) fp s1 ops idx h1le'
          (by rw [h1c]; omega)
        obtain ⟨out, hout, hoc, hole, hoge⟩ := hinner
        cases out with
        | done s2 ops2 idx2 =>
          have h2c : s2.content = s.content := by
            have hh := hoc; rw [h1c] at hh; exact hh
          have h2le : s2.position ≤ s.content.length := by
            have hh := hole; rw [h1c] at hh; exact hh
          have h2ge : s1.position ≤ s2.position := hoge
          have := ih s2 ops2 errs idx2 (some fp)
            (by rw [h2c]; exact h2le)
            (by rw [h2c]; omega)
          obtain ⟨r, hr⟩ := this
          refine ⟨r, ?_⟩
          rw [hout]
          exact hr
        | fail m s2 ops2 idx2 =>
          have h2c : s2.content = s.content := by
            have hh := hoc; rw [h1c] at hh; exact hh
          have h2le : s2.position ≤ s.content.length := by
            have hh := hole; rw [h1c] at hh; exact hh
          have h2ge : s1.position ≤ s2.position := hoge
          have h2le2 : s2.position ≤ s2.content.length := by rw [h2c]; exact h2le
          have hrc := pu_content s2 [kwFILE]
          have hrle := pu_position_le s2 [kwFILE] h2le2
          have hrge := pu_position_ge s2 [kwFILE] h2le2
          have := ih (parse_until s2 [kwFILE]).2 ops2
            (errs ++ [⟨fp, m, (idx2 : Int)⟩]) idx2 (some fp)
            (by rw [hrc]; rw [h2c] at hrle ⊢; exact hrle)
            (by rw [hrc, h2c]; rw [h2c] at hrle; omega)
          obtain ⟨r, hr⟩ := this
          refine ⟨r, ?_⟩
          rw [hout]
          exact hr
    · rw [if_neg hpos]
      exact ⟨(ops, errs), rfl⟩

/-- C10: `parse_patch_file` terminates on every finite input: the fuel
`length + 2` given to the outer block loop (and `length + 2` to each inner
find/operation loop) always suffices, because every iteration either
strictly advances the cursor or reaches a state from which the loop
condition fails. -/
theorem c10_parse_patch_file_terminates (content : List Char) :
    ∃ r, parse_patch_file content = some r := by
  unfold parse_patch_file
  exact outerLoop_some (content.length + 2) ⟨content, 0, 1⟩ [] [] 0 none
    (Nat.zero_le _) (by dsimp only; omega)

/-! ## Error recovery claim (C4) -/

theorem untilCount_stops (ds : List (List Char)) : ∀ l : List Char,
    untilCount ds l = l.length ∨
    ∃ d ∈ ds, d.isPrefixOf (l.drop (untilCount ds l)) := by
  intro l
  induction l with
  | nil => left; rfl
  | cons c t ih =>
    by_cases ha : (ds.any fun d => d.isPrefixOf (c :: t)) = true
    · right
      have h0 : untilCount ds (c :: t) = 0 := by
        simp only [untilCount]
        rw [if_pos ha]
      rw [h0]
      simpa using ha
    · have hstep : untilCount ds (c :: t) = untilCount ds t + 1 := by
        simp only [untilCount]
        rw [if_neg ha]
      rcases ih with hlen | ⟨d, hd, hp⟩
      · left; rw [hstep, hlen]; rfl
      · right
        exact ⟨d, hd, by rw [hstep, List.drop_succ_cons]; exact hp⟩

theorem untilCount_min (ds : List (List Char)) : ∀ (l : List Char) (k : Nat),
    k < untilCount ds l → ∀ d ∈ ds, ¬ d.isPrefixOf (l.drop k) := by
  intro l
  induction l with
  | nil => intro k hk; simp [untilCount] at hk
  | cons c t ih =>
    intro k hk d hd
    by_cases ha : (ds.any fun d => d.isPrefixOf (c :: t)) = true
    · have h0 : untilCount ds (c :: t) = 0 := by
        simp only [untilCount]; rw [if_pos ha]
      omega
    · have hstep : untilCount ds (c :: t) = untilCount ds t + 1 := by
        simp only [untilCount]; rw [if_neg ha]
      match k with
      | 0 =>
        intro hp
        exact ha (List.any_eq_true.mpr ⟨d, hd, hp⟩)
      | k + 1 =>
        rw [List.drop_succ_cons]
        exact ih k (by omega) d hd

/-- C4: a parse failure in one FILE block does not prevent parsing later
blocks: the recovery step (`parse_until(state, "FILE:")`) always leaves the
cursor at the end of input or exactly at the next `FILE:` token (nothing
before it is a `FILE:` token), after which the outer loop continues; and on
the concrete Scenario C script the malformed first block yields exactly one
ParseError while the second block still contributes its DELETE operation
for `b.py`. -/
theorem c4_parse_error_recovery :
    (∀ sE : ParserState, sE.position ≤ sE.content.length →
      ((parse_until sE [kwFILE]).2.position = sE.content.length ∨
        kwFILE.isPrefixOf
          (sE.content.drop (parse_until sE [kwFILE]).2.position)) ∧
      (∀ k, sE.position ≤ k → k < (parse_until sE [kwFILE]).2.position →
        ¬ kwFILE.isPrefixOf (sE.content.drop k))) ∧
    parse_patch_file ("FILE: a.py\nBOGUS\n\nFILE: b.py\nFIND:\ny\nDELETE\n".toList) =
      some ([⟨"b.py".toList, "y".toList, .DELETE, none⟩],
        [⟨"a.py".toList,
          "Expected \x27FIND:\x27 at line 2", 0⟩]) := by
  constructor
  · intro sE h
    constructor
    · rw [pu_position sE [kwFILE] h]
      rcases untilCount_stops [kwFILE] (sE.content.drop sE.position) with hlen | ⟨d, hd, hp⟩
      · left
        rw [hlen, List.length_drop]
        omega
      · right
        have hdk : d = kwFILE := by simpa using hd
        subst hdk
        rw [List.drop_drop] at hp
        exact hp
    · intro k hk1 hk2 hp
      rw [pu_position sE [kwFILE] h] at hk2
      have := untilCount_min [kwFILE] (sE.content.drop sE.position) (k - sE.position)
        (by omega) kwFILE (by simp)
      rw [List.drop_drop] at this
      have heq : sE.position + (k - sE.position) = k := by omega
      rw [heq] at this
      exact this hp
  · decide

/-- Witness for C4 (the general conjunct has a hypothesis): the recovery
property applied at a concrete state. -/
theorem c4_parse_error_recovery_witness :
    ((parse_until ⟨"xyFILE: a".toList, 0, 1⟩ [kwFILE]).2.position =
        ("xyFILE: a".toList).length ∨
      kwFILE.isPrefixOf
        (("xyFILE: a".toList).drop
          (parse_until ⟨"xyFILE: a".toList, 0, 1⟩ [kwFILE]).2.position)) :=
  ((c4_parse_error_recovery.1 ⟨"xyFILE: a".toList, 0, 1⟩ (by decide)).1)

/-! ## Error attribution claim (C5): corrected -/

/-- Counterexample to C5: in the script below the second block fails with
"Empty file path" before any path is parsed for that block, so the claim
requires `target_path = "unknown"`; the code (`'file_path' in locals()`)
reuses the path parsed in the *earlier* block and reports `a.py`. -/
theorem c5_counterexample :
    parse_patch_file ("FILE: a.py\nFIND:\nx\nDELETE\nFILE:\n".toList) =
      some ([⟨"a.py".toList, "x".toList, .DELETE, none⟩],
        [⟨"a.py".toList, "Empty file path", 1⟩]) ∧
    ("a.py".toList : List Char) ≠ "unknown".toList := by
  exact ⟨by decide, by decide⟩

/-- C5 as amended: a ParseError records as `target_path` the most recently
successfully parsed file path of the *whole parse so far* — the current
block when its `FILE:` directive succeeded, otherwise the last path of any
earlier block, and `"unknown"` only when no path has ever been parsed —
and `operation_index` is the running count of operations successfully
parsed so far (not reset per block). Stated as the two one-step unfoldings
of the outer loop that append an error. -/
theorem c5_amended_error_attribution :
    (∀ (fuel : Nat) (s : ParserState) (ops : List PatchOperation)
      (errs : List Error) (idx : Nat) (lp : Option (List Char))
      (m : String) (sE : ParserState),
      s.position < s.content.length →
      parse_file_directive s = .error (m, sE) →
      outerLoop (fuel + 1) s ops errs idx lp =
        outerLoop fuel (parse_until sE [kwFILE]).2 ops
          (errs ++ [⟨pathName lp, m, (idx : Int)⟩]) idx lp) ∧
    (∀ (fuel : Nat) (s : ParserState) (ops : List PatchOperation)
      (errs : List Error) (idx : Nat) (lp : Option (List Char))
      (fp : List Char) (s1 : ParserState) (m : String) (s2 : ParserState)
      (ops2 : List PatchOperation) (idx2 : Nat),
      s.position < s.content.length →
      parse_file_directive s = .ok (fp, s1) →
      innerLoop (s.content.length + 2) fp s1 ops idx =
        some (.fail m s2 ops2 idx2) →
      outerLoop (fuel + 1) s ops errs idx lp =
        outerLoop fuel (parse_until s2 [kwFILE]).2 ops2
          (errs ++ [⟨fp, m, (idx2 : Int)⟩]) idx2 (some fp)) := by
  constructor
  · intro fuel s ops errs idx lp m sE hpos he
    simp only [outerLoop]
    rw [if_pos hpos, he]
  · intro fuel s ops errs idx lp fp s1 m s2 ops2 idx2 hpos he hi
    simp only [outerLoop]
    rw [if_pos hpos, he]
    dsimp only
    rw [hi]

/-- Witness for the amended C5: a failing `FILE:` directive in a state
where an earlier block's path `a.py` is the last parsed path — the
recorded error carries `a.py` and the running index `3`. -/
theorem c5_amended_error_attribution_witness :
    outerLoop 2 ⟨"FILE:\n".toList, 0, 1⟩ [] [] 3 (some "a.py".toList) =
      outerLoop 1 (parse_until ⟨"FILE:\n".toList, 5, 1⟩ [kwFILE]).2 []
        ([⟨pathName (some "a.py".toList), "Empty file path", (3 : Int)⟩]) 3
        (some "a.py".toList) :=
  c5_amended_error_attribution.1 1 ⟨"FILE:\n".toList, 0, 1⟩ [] [] 3
    (some "a.py".toList) "Empty file path" ⟨"FILE:\n".toList, 5, 1⟩
    (by decide) (by decide)

/-- Counterexample to C6: on `"REPLACE WITHDELETE"` the code consumes
`REPLACE WITH`, finds no colon, and then tries the remaining keywords from
the position *after* the consumed keyword, so the trailing `DELETE`
matches; under the claim (cursor restored to the original position) no
keyword matches and the result is `none`. -/
theorem c6_counterexample :
    (parse_operation ⟨"REPLACE WITHDELETE".toList, 0, 1⟩).1 =
      some (.DELETE, none) ∧
    (parse_operation_claim ⟨"REPLACE WITHDELETE".toList, 0, 1⟩).1 = none := by
  exact ⟨by decide, by decide⟩

theorem tryOp_cons_eq (op : OperationType) (rest : List OperationType)
    (s : ParserState) :
    tryOp (op :: rest) s =
      (match tryOneKeyword op s with
       | .inl r => r
       | .inr s1 => tryOp rest s1) := by
  simp only [tryOp, tryOneKeyword]
  cases hk : parse_keyword s op.value with
  | mk b s1 =>
    cases b
    · rfl
    · by_cases hD : op = .DELETE
      · simp only [hD, if_true]
      · simp only [hD, if_false]
        split
        · rfl
        · rfl

/-- C6 as amended: `parse_operation` equals the amended dispatch
description (priority order kept; abandoned attempts keep the cursor after
the consumed keyword; bare DELETE immediate; no-match signals absence). -/
theorem c6_amended_keyword_dispatch (s : ParserState) :
    parse_operation s = parse_operation_amended_spec s := by
  unfold parse_operation parse_operation_amended_spec operationTypeList
  simp only [tryOp_cons_eq]
  simp only [tryOp]

/-- Counterexample to C8: an operation whose match text has a leading
space (`" x"`) serializes to a grammatical script, but re-parsing trims the
payload, so the parsed list records `"x"` — path, kind and error-freeness
survive, the payload does not, contradicting "trailing/leading spaces
inside payloads ... preserved". -/
theorem c8_counterexample :
    parse_patch_file
        (serialize [⟨"a.py".toList, ' ' :: "x".toList, .DELETE, none⟩]) =
      some ([⟨"a.py".toList, "x".toList, .DELETE, none⟩], []) ∧
    ([⟨"a.py".toList, "x".toList, .DELETE, none⟩] : List PatchOperation) ≠
      [⟨"a.py".toList, ' ' :: "x".toList, .DELETE, none⟩] := by
  exact ⟨by decide, by decide⟩

theorem isPrefixOf_append_self (k rest : List Char) :
    k.isPrefixOf (k ++ rest) :=
  List.isPrefixOf_iff_prefix.mpr ⟨rest, rfl⟩

theorem isPrefixOf_getElem? {d l : List Char} (h : d.isPrefixOf l)
    {j : Nat} (hj : j < d.length) : l[j]? = d[j]? := by
  obtain ⟨t, ht⟩ := List.isPrefixOf_iff_prefix.mp h
  rw [← ht, List.getElem?_append_left hj]

theorem head_of_isPrefixOf {d : List Char} {c : Char} {l : List Char}
    (h : d.isPrefixOf (c :: l)) (hne : d ≠ []) : d.head? = some c := by
  cases d with
  | nil => exact absurd rfl hne
  | cons d0 dt =>
    rw [List.isPrefixOf_cons₂] at h
    simp only [Bool.and_eq_true, beq_iff_eq] at h
    rw [h.1]
    rfl

theorem mem_of_head?_eq {l : List Char} {c : Char}
    (h : l.head? = some c) : c ∈ l := by
  cases l with
  | nil => cases h
  | cons x xs =>
    simp only [List.head?_cons, Option.some.injEq] at h
    rw [← h]
    exact List.mem_cons_self _ _

theorem not_isPrefixOf_head {a b : Char} {d l : List Char} (hne : a ≠ b) :
    ¬ (a :: d).isPrefixOf (b :: l) := by
  intro h
  have := head_of_isPrefixOf h (by simp)
  simp only [List.head?_cons, Option.some.injEq] at this
  exact hne this

theorem isPrefixOf_confine {d p x : List Char} {i : Nat}
    (hle : i + d.length ≤ p.length)
    (h : d.isPrefixOf ((p ++ x).drop i)) : d.isPrefixOf (p.drop i) := by
  have hi : i ≤ p.length := by omega
  rw [List.drop_append_of_le_length hi] at h
  rw [List.isPrefixOf_iff_prefix] at h ⊢
  rw [List.prefix_iff_eq_take] at h ⊢
  rw [List.take_append_of_le_length (by rw [List.length_drop]; omega)] at h
  exact h

theorem junction_char {p b : List Char} {c : Char} {d : List Char} {i : Nat}
    (hi : i < p.length) (hspan : p.length < i + d.length)
    (h : d.isPrefixOf ((p ++ c :: b).drop i)) :
    d[p.length - i]? = some c := by
  have h1 := isPrefixOf_getElem? h (j := p.length - i) (by omega)
  rw [List.getElem?_drop] at h1
  have heq : i + (p.length - i) = p.length := by omega
  rw [heq] at h1
  rw [List.getElem?_append_right (le_refl p.length)] at h1
  rw [Nat.sub_self, List.getElem?_cons_zero] at h1
  exact h1.symm

theorem bridgeA {d p b : List Char}
    (hd : '\n' ∉ d) (hne : d ≠ []) (hns : NoSub d p) :
    ∀ i < p.length + 1, ¬ d.isPrefixOf ((p ++ '\n' :: b).drop i) := by
  intro i hi h
  rcases Nat.lt_or_ge (i + d.length) (p.length + 1) with hc | hc
  · exact hns i (by omega) (isPrefixOf_confine (by omega) h)
  · rcases Nat.lt_or_ge i p.length with hip | hip
    · have hj := junction_char hip (by omega) h
      exact hd (List.getElem?_mem hj)
    · have hieq : i = p.length := by omega
      subst hieq
      rw [List.drop_left] at h
      exact hd (mem_of_head?_eq (head_of_isPrefixOf h hne))

theorem bridgeB {d0 p b : List Char}
    (hd : '\n' ∉ d0) (hns : NoSub ('\n' :: d0) p) :
    ∀ i < p.length, ¬ ('\n' :: d0).isPrefixOf ((p ++ '\n' :: b).drop i) := by
  intro i hi h
  rcases Nat.lt_or_ge (i + ('\n' :: d0).length) (p.length + 1) with hc | hc
  · exact hns i (by omega) (isPrefixOf_confine (by omega) h)
  · have hspan : p.length < i + ('\n' :: d0).length := by
      simp only [List.length_cons] at hc ⊢
      omega
    have hj := junction_char hi hspan h
    have hpos : 1 ≤ p.length - i := by omega
    have hrw : p.length - i = (p.length - i - 1) + 1 := by omega
    rw [hrw, List.getElem?_cons_succ] at hj
    exact hd (List.getElem?_mem hj)

theorem single_nl {p b : List Char} (hnl : '\n' ∉ p) :
    ∀ i < p.length, ¬ ['\n'].isPrefixOf ((p ++ b).drop i) := by
  intro i hi h
  have h1 := isPrefixOf_getElem? h (j := 0) (by simp)
  rw [List.getElem?_drop, Nat.add_zero, List.getElem?_append_left hi] at h1
  have h2 : p[i]? = some '\n' := by rw [h1]; rfl
  exact hnl (List.getElem?_mem h2)

theorem NoSub_cons {d : List Char} {c : Char} {p : List Char} (hne : d ≠ [])
    (hhd : d.head? ≠ some c) (hns : NoSub d p) : NoSub d (c :: p) := by
  intro i hi h
  match i with
  | 0 => exact hhd (head_of_isPrefixOf h hne)
  | i + 1 =>
    rw [List.drop_succ_cons] at h
    exact hns i (by simpa using hi) h

theorem pyStrip_fix_front {l : List Char} (h : pyStrip l = l) :
    l.dropWhile pyIsSpace = l := by
  have hsuffix : l.dropWhile pyIsSpace <:+ l := List.dropWhile_suffix _
  have hlen1 : l.length ≤ (l.dropWhile pyIsSpace).length := by
    conv_lhs => rw [← h]
    unfold pyStrip
    rw [List.length_reverse]
    calc ((l.dropWhile pyIsSpace).reverse.dropWhile pyIsSpace).length
        ≤ (l.dropWhile pyIsSpace).reverse.length :=
          (List.dropWhile_suffix pyIsSpace).length_le
      _ = (l.dropWhile pyIsSpace).length := List.length_reverse _
  exact hsuffix.eq_of_length_le hlen1

theorem pyStrip_fix_back {l : List Char} (h : pyStrip l = l) :
    l.reverse.dropWhile pyIsSpace = l.reverse := by
  have hfront := pyStrip_fix_front h
  unfold pyStrip at h
  rw [hfront] at h
  have h2 := congrArg List.reverse h
  rw [List.reverse_reverse] at h2
  exact h2

theorem head_not_space_of_fix {c : Char} {t : List Char}
    (h : pyStrip (c :: t) = c :: t) : ¬ pyIsSpace c := by
  intro hsp
  have hfront := pyStrip_fix_front h
  rw [List.dropWhile_cons, if_pos hsp] at hfront
  have h1 := congrArg List.length hfront
  have h2 := (List.dropWhile_suffix (l := t) pyIsSpace).length_le
  simp only [List.length_cons] at h1
  omega

theorem pyStrip_cons_ws {c : Char} {l : List Char} (hc : pyIsSpace c) :
    pyStrip (c :: l) = pyStrip l := by
  unfold pyStrip
  rw [List.dropWhile_cons, if_pos hc]

theorem pyStrip_append_nl {p : List Char} (hne : p ≠ [])
    (h : pyStrip p = p) : pyStrip (p ++ ['\n']) = p := by
  obtain ⟨c, t, rfl⟩ : ∃ c t, p = c :: t := by
    cases p with
    | nil => exact absurd rfl hne
    | cons c t => exact ⟨c, t, rfl⟩
  have hc := head_not_space_of_fix h
  have hback := pyStrip_fix_back h
  rw [List.reverse_cons] at hback
  unfold pyStrip
  rw [List.cons_append, List.dropWhile_cons, if_neg hc]
  have hrev : (c :: (t ++ ['\n'])).reverse = '\n' :: (t.reverse ++ [c]) := by
    simp
  rw [hrev, List.dropWhile_cons, if_pos (by decide : pyIsSpace '\n' = true)]
  rw [hback]
  simp

theorem skipWsCount_exact {w rest : List Char}
    (hw : ∀ c ∈ w, pyIsSpace c)
    (hr : ∀ c, rest.head? = some c → ¬ pyIsSpace c) :
    skipWsCount (w ++ rest) = w.length := by
  induction w with
  | nil =>
    cases rest with
    | nil => rfl
    | cons c t =>
      simp only [List.nil_append, skipWsCount]
      rw [if_neg (hr c rfl)]
      rfl
  | cons c w' ih =>
    simp only [List.cons_append, skipWsCount, List.append_eq]
    rw [if_pos (hw c (List.mem_cons_self _ _))]
    have := ih (fun x hx => hw x (List.mem_cons_of_mem _ hx))
    simp only [List.length_cons]
    omega

theorem sw_exact {s : ParserState} {w rest : List Char}
    (h : s.position ≤ s.content.length)
    (hd : s.content.drop s.position = w ++ rest)
    (hw : ∀ c ∈ w, pyIsSpace c)
    (hr : ∀ c, rest.head? = some c → ¬ pyIsSpace c) :
    (skip_whitespace s).content = s.content ∧
    (skip_whitespace s).position = s.position + w.length ∧
    s.content.drop (s.position + w.length) = rest := by
  have hcnt : skipWsCount (s.content.drop s.position) = w.length := by
    rw [hd]; exact skipWsCount_exact hw hr
  refine ⟨sw_content s, ?_, ?_⟩
  · rw [sw_position s h, hcnt]
  · have heq : s.content.drop (s.position + w.length) =
        (s.content.drop s.position).drop w.length := by
      rw [List.drop_drop]
    rw [heq, hd, List.drop_left]

theorem advance_exact {s : ParserState} {seg rest : List Char}
    (h : s.position ≤ s.content.length)
    (hd : s.content.drop s.position = seg ++ rest) :
    (advance s seg.length).content = s.content ∧
    (advance s seg.length).position = s.position + seg.length ∧
    s.content.drop (s.position + seg.length) = rest := by
  have hlen : seg.length + rest.length = s.content.length - s.position := by
    have h1 := congrArg List.length hd
    rw [List.length_drop, List.length_append] at h1
    omega
  refine ⟨advance_content _ _, ?_, ?_⟩
  · rw [advance_position _ _ h]; omega
  · have heq : s.content.drop (s.position + seg.length) =
        (s.content.drop s.position).drop seg.length := by
      rw [List.drop_drop]
    rw [heq, hd, List.drop_left]

theorem pk_exact {s : ParserState} {k rest : List Char}
    (hd : s.content.drop s.position = k ++ rest) :
    parse_keyword s k = (true, advance s k.length) :=
  pk_true (by rw [hd]; exact isPrefixOf_append_self k rest)

theorem untilCount_exact {ds : List (List Char)} {a b : List Char}
    (hno : ∀ i < a.length, ∀ d ∈ ds, ¬ d.isPrefixOf ((a ++ b).drop i))
    (hstop : b = [] ∨ ∃ d ∈ ds, d.isPrefixOf b) :
    untilCount ds (a ++ b) = a.length := by
  induction a with
  | nil =>
    rcases hstop with rfl | ⟨d, hdm, hp⟩
    · rfl
    · cases b with
      | nil => rfl
      | cons c t =>
        simp only [List.nil_append, untilCount]
        rw [if_pos (List.any_eq_true.mpr ⟨d, hdm, hp⟩)]
        rfl
  | cons c a' ih =>
    have hany : ¬ (ds.any fun d => d.isPrefixOf (c :: (a' ++ b))) = true := by
      intro hx
      obtain ⟨d, hdm, hp⟩ := List.any_eq_true.mp hx
      exact hno 0 (by simp) d hdm (by simpa using hp)
    have hno2 : ∀ i < a'.length, ∀ d ∈ ds, ¬ d.isPrefixOf ((a' ++ b).drop i) := by
      intro i hi d hdm hp
      refine hno (i + 1) (by simp; omega) d hdm ?_
      rw [List.cons_append, List.drop_succ_cons]
      exact hp
    simp only [List.cons_append, untilCount, List.append_eq]
    rw [if_neg hany, ih hno2]
    simp

theorem pu_exact {s : ParserState} {ds : List (List Char)} {a b : List Char}
    (hd : s.content.drop s.position = a ++ b)
    (hno : ∀ i < a.length, ∀ d ∈ ds, ¬ d.isPrefixOf ((a ++ b).drop i))
    (hstop : b = [] ∨ ∃ d ∈ ds, d.isPrefixOf b) :
    parse_until s ds = (a, advance s a.length) := by
  have hcnt : untilCount ds (s.content.drop s.position) = a.length := by
    rw [hd]; exact untilCount_exact hno hstop
  unfold parse_until
  rw [hcnt, hd, List.take_left]

theorem sw_noop {s : ParserState} {c : Char} {rest : List Char}
    (hd : s.content.drop s.position = c :: rest) (hc : ¬ pyIsSpace c) :
    skip_whitespace s = s := by
  unfold skip_whitespace
  rw [hd]
  simp only [skipWsCount]
  rw [if_neg hc]
  rfl

theorem currentC_eq (s : ParserState) :
    currentC s = (s.content.drop s.position).head? := by
  rw [List.head?_eq_getElem?, List.getElem?_drop, Nat.add_zero]
  rfl

theorem not_isPrefixOf_of_getElem_ne {d l : List Char} {j : Nat}
    (hj : j < d.length) (hne : d[j]? ≠ l[j]?) : ¬ d.isPrefixOf l :=
  fun h => hne (isPrefixOf_getElem? h hj).symm

theorem tryOp_step_fail {op : OperationType} {rest : List OperationType}
    {s : ParserState}
    (hp : ¬ (op.value).isPrefixOf (s.content.drop s.position)) :
    tryOp (op :: rest) s = tryOp rest s := by
  simp only [tryOp]
  rw [pk_false hp]

theorem tryOp_step_delete {rest : List OperationType} {s : ParserState}
    {more : List Char}
    (hd : s.content.drop s.position = kwDELETE ++ more) :
    tryOp (.DELETE :: rest) s =
      (some (.DELETE, none), advance s kwDELETE.length) := by
  have hd2 : s.content.drop s.position = (OperationType.DELETE).value ++ more := hd
  simp only [tryOp]
  rw [pk_exact hd2]
  rfl

theorem tryOp_step_colon {op : OperationType} {rest : List OperationType}
    {s : ParserState} {more : List Char}
    (h : s.position ≤ s.content.length)
    (hop : ¬ op = OperationType.DELETE)
    (hd : s.content.drop s.position = op.value ++ ':' :: more) :
    tryOp (op :: rest) s =
      (some (op, some (pyStrip (parse_until (skip_whitespace
          (advance (advance s op.value.length) 1)) [nlFIND, nlFILE]).1)),
       (parse_until (skip_whitespace (advance (advance s op.value.length) 1))
          [nlFIND, nlFILE]).2) := by
  have hadv := advance_exact h hd
  have hcur : currentC (advance s op.value.length) = some ':' := by
    rw [currentC_eq, hadv.1, hadv.2.1, hadv.2.2]
    rfl
  simp only [tryOp]
  rw [pk_exact hd]
  dsimp only
  rw [if_neg hop, hcur]
  rfl

theorem serializeOp_decomp (op : PatchOperation) (tail : List Char) :
    serializeOp op ++ tail =
      kwFILE ++ [' '] ++ (op.file_path ++ ('\n' :: (kwFIND ++ ('\n' ::
        (op.find_content ++ ('\n' :: (opSegment op ++ ('\n' :: tail)))))))) := by
  unfold serializeOp opSegment
  cases op.operation <;> simp [kwFILE, kwFIND, kwREPLACEC, kwADDBC, kwADDAC, kwDELETE]

theorem pfd_serialized {s : ParserState} {path rest : List Char}
    (h : s.position ≤ s.content.length)
    (hd : s.content.drop s.position = kwFILE ++ [' '] ++ (path ++ '\n' :: rest))
    (hne : path ≠ []) (hstrip : pyStrip path = path)
    (hnl : '\n' ∉ path) (hbs : '\\' ∉ path) (hfind : NoSub kwFIND path) :
    parse_file_directive s =
      .ok (path, advance (advance s kwFILE.length) (' ' :: path).length) ∧
    (advance (advance s kwFILE.length) (' ' :: path).length).content = s.content ∧
    (advance (advance s kwFILE.length) (' ' :: path).length).position =
      s.position + 6 + path.length ∧
    s.content.drop (s.position + 6 + path.length) = '\n' :: rest := by
  have hd1 : s.content.drop s.position = kwFILE ++ ((' ' :: path) ++ '\n' :: rest) := by
    rw [hd]
    simp [List.append_assoc]
  have hdF : s.content.drop s.position =
      'F' :: (['I','L','E',':',' '] ++ (path ++ '\n' :: rest)) := by
    rw [hd1]
    rfl
  have hsw := sw_noop hdF (by decide)
  have hpk := pk_exact hd1
  have hadv := advance_exact h hd1
  have h2le : (advance s kwFILE.length).position ≤
      (advance s kwFILE.length).content.length := by
    have hlen := congrArg List.length hadv.2.2
    rw [List.length_drop] at hlen
    simp only [List.length_append, List.length_cons] at hlen
    rw [hadv.1, hadv.2.1]
    omega
  have hdrop2 : (advance s kwFILE.length).content.drop
      (advance s kwFILE.length).position = (' ' :: path) ++ '\n' :: rest := by
    rw [hadv.1, hadv.2.1]
    exact hadv.2.2
  have hno : ∀ i < (' ' :: path).length, ∀ d ∈ [kwFIND, ['\n']],
      ¬ d.isPrefixOf (((' ' :: path) ++ '\n' :: rest).drop i) := by
    intro i hi d hdm
    simp only [List.mem_cons, List.mem_singleton, List.not_mem_nil, or_false] at hdm
    rcases hdm with rfl | rfl
    · exact bridgeA (by decide) (by decide)
        (NoSub_cons (by decide) (by decide) hfind) i
        (by simp only [List.length_cons] at hi ⊢; omega)
    · have hnl2 : '\n' ∉ ' ' :: path := by
        intro hmem
        rcases List.mem_cons.mp hmem with hx | hx
        · cases hx
        · exact hnl hx
      exact single_nl hnl2 i hi
  have hstop : ('\n' :: rest) = [] ∨
      ∃ d ∈ [kwFIND, ['\n']], d.isPrefixOf ('\n' :: rest) := by
    right
    exact ⟨['\n'], by simp, isPrefixOf_append_self ['\n'] rest⟩
  have hpu := pu_exact hdrop2 hno hstop
  have hadv2 := advance_exact h2le hdrop2
  have hstrip2 : pyStrip (' ' :: path) = path := by
    rw [pyStrip_cons_ws (by decide)]
    exact hstrip
  have hmap : path.map (fun c => if c = '\\' then '/' else c) = path := by
    have hcong : path.map (fun c => if c = '\\' then '/' else c) = path.map id := by
      refine List.map_congr_left ?_
      intro a ha
      simp only [id]
      exact if_neg (fun hh : a = '\\' => hbs (by rw [← hh]; exact ha))
    rw [hcong, List.map_id]
  refine ⟨?_, ?_, ?_, ?_⟩
  · unfold parse_file_directive
    dsimp only
    rw [hsw, hpk]
    dsimp only
    rw [hpu]
    dsimp only
    rw [hstrip2]
    have hempf : path.isEmpty = false := by
      cases path with
      | nil => exact absurd rfl hne
      | cons a b => rfl
    rw [if_neg (show ¬ (path.isEmpty = true) by simp [hempf])]
    rw [hmap]
  · rw [hadv2.1, hadv.1]
  · rw [hadv2.2.1, hadv.2.1]
    have h5 : kwFILE.length = 5 := rfl
    simp only [List.length_cons]
    omega
  · have := hadv2.2.2
    rw [hadv.1, hadv.2.1] at this
    have heq : s.position + kwFILE.length + (' ' :: path).length =
        s.position + 6 + path.length := by
      simp only [List.length_cons]
      have : kwFILE.length = 5 := rfl
      omega
    rw [heq] at this
    exact this

theorem pfb_serialized {s : ParserState} {p b : List Char}
    (h : s.position ≤ s.content.length)
    (hd : s.content.drop s.position =
      '\n' :: (kwFIND ++ ('\n' :: (p ++ ('\n' :: b)))))
    (hne : p ≠ []) (hstrip : pyStrip p = p)
    (h1 : NoSub kwREPLACEC p) (h2 : NoSub kwADDBC p)
    (h3 : NoSub kwADDAC p) (h4 : NoSub kwDELETE p)
    (hstop : ∃ d ∈ [kwREPLACEC, kwADDBC, kwADDAC, kwDELETE], d.isPrefixOf b) :
    ∃ sB : ParserState, parse_find_block s = .ok (p, sB) ∧
      sB.content = s.content ∧ sB.position = s.position + 8 + p.length ∧
      s.content.drop sB.position = b := by
  obtain ⟨c0, t0, rfl⟩ : ∃ c0 t0, p = c0 :: t0 := by
    cases p with
    | nil => exact absurd rfl hne
    | cons c0 t0 => exact ⟨c0, t0, rfl⟩
  have hc0 : ¬ pyIsSpace c0 := head_not_space_of_fix hstrip
  -- step 1: skip the newline before FIND:
  have hd1 : s.content.drop s.position =
      ['\n'] ++ (kwFIND ++ ('\n' :: ((c0 :: t0) ++ ('\n' :: b)))) := hd
  have hsw1 := sw_exact h hd1
    (by intro c hc; simp at hc; rw [hc]; decide)
    (by intro c hc; rw [show (kwFIND ++ ('\n' :: ((c0 :: t0) ++ ('\n' :: b)))).head? =
          some 'F' from rfl] at hc
        injection hc with hc
        rw [← hc]; decide)
  -- step 2: the FIND: keyword
  have h1le : (skip_whitespace s).position ≤ (skip_whitespace s).content.length := by
    rw [hsw1.1]; exact sw_position_le s h
  have hd2 : (skip_whitespace s).content.drop (skip_whitespace s).position =
      kwFIND ++ ('\n' :: ((c0 :: t0) ++ ('\n' :: b))) := by
    rw [hsw1.1, hsw1.2.1]
    exact hsw1.2.2
  have hpk := pk_exact hd2
  have hadv := advance_exact h1le hd2
  -- step 3: skip the newline before the payload
  have h2le : (advance (skip_whitespace s) kwFIND.length).position ≤
      (advance (skip_whitespace s) kwFIND.length).content.length := by
    have hlen := congrArg List.length hadv.2.2
    rw [List.length_drop] at hlen
    simp only [List.length_cons, List.length_append] at hlen
    rw [hadv.1, hadv.2.1]
    omega
  have hd3 : (advance (skip_whitespace s) kwFIND.length).content.drop
      (advance (skip_whitespace s) kwFIND.length).position =
      ['\n'] ++ ((c0 :: t0) ++ ('\n' :: b)) := by
    rw [hadv.1, hadv.2.1]
    exact hadv.2.2
  have hsw2 := sw_exact h2le hd3
    (by intro c hc; simp at hc; rw [hc]; decide)
    (by intro c hc
        rw [show ((c0 :: t0) ++ ('\n' :: b)).head? = some c0 from rfl] at hc
        injection hc with hc
        rw [← hc]; exact hc0)
  -- step 4: the payload up to the operation keyword
  have h3le : (skip_whitespace (advance (skip_whitespace s) kwFIND.length)).position ≤
      (skip_whitespace (advance (skip_whitespace s) kwFIND.length)).content.length := by
    rw [hsw2.1]; exact sw_position_le _ h2le
  have hd4 : (skip_whitespace (advance (skip_whitespace s) kwFIND.length)).content.drop
      (skip_whitespace (advance (skip_whitespace s) kwFIND.length)).position =
      ((c0 :: t0) ++ ['\n']) ++ b := by
    rw [hsw2.1, hsw2.2.1, hadv.1, hadv.2.1]
    have hx := hsw2.2.2
    rw [hadv.1, hadv.2.1] at hx
    rw [hx]
    simp
  have hshape : ((c0 :: t0) ++ ['\n']) ++ b = (c0 :: t0) ++ '\n' :: b := by simp
  have hno : ∀ i < ((c0 :: t0) ++ ['\n']).length,
      ∀ d ∈ [kwREPLACEC, kwADDBC, kwADDAC, kwDELETE],
      ¬ d.isPrefixOf ((((c0 :: t0) ++ ['\n']) ++ b).drop i) := by
    intro i hi d hdm
    rw [hshape]
    have hi2 : i < (c0 :: t0).length + 1 := by
      simp only [List.length_append, List.length_cons, List.length_nil] at hi ⊢
      omega
    simp only [List.mem_cons, List.not_mem_nil, or_false] at hdm
    rcases hdm with rfl | rfl | rfl | rfl
    · exact bridgeA (by decide) (by decide) h1 i hi2
    · exact bridgeA (by decide) (by decide) h2 i hi2
    · exact bridgeA (by decide) (by decide) h3 i hi2
    · exact bridgeA (by decide) (by decide) h4 i hi2
  have hpu := pu_exact hd4 hno (Or.inr hstop)
  have hadv2 := advance_exact h3le hd4
  have hpos : (advance (skip_whitespace (advance (skip_whitespace s) kwFIND.length))
      ((c0 :: t0) ++ ['\n']).length).position = s.position + 8 + (c0 :: t0).length := by
    rw [hadv2.2.1, hsw2.2.1, hadv.2.1, hsw1.2.1]
    have h5 : kwFIND.length = 5 := rfl
    simp only [List.length_append, List.length_cons, List.length_nil]
    omega
  refine ⟨advance (skip_whitespace (advance (skip_whitespace s) kwFIND.length))
      ((c0 :: t0) ++ ['\n']).length, ?_, ?_, hpos, ?_⟩
  · unfold parse_find_block
    dsimp only
    rw [hpk]
    dsimp only
    rw [hpu]
    dsimp only
    rw [pyStrip_append_nl hne hstrip]
  · rw [hadv2.1, hsw2.1, hadv.1, hsw1.1]
  · have hx := hadv2.2.2
    rw [hsw2.1, hsw2.2.1, hadv.1, hadv.2.1, hsw1.1, hsw1.2.1] at hx
    have heq : s.position + ['\n'].length + kwFIND.length + ['\n'].length +
        ((c0 :: t0) ++ ['\n']).length = s.position + 8 + (c0 :: t0).length := by
      simp only [List.length_append, List.length_cons, List.length_nil]
      have h5 : kwFIND.length = 5 := rfl
      omega
    rw [heq] at hx
    rw [hpos]
    exact hx

theorem colon_payload_chain {s : ParserState} {r tail : List Char}
    (h : s.position ≤ s.content.length)
    (hd : s.content.drop s.position = ':' :: ('\n' :: (r ++ '\n' :: tail)))
    (hne : r ≠ []) (hstrip : pyStrip r = r)
    (hF : NoSub nlFIND r) (hL : NoSub nlFILE r)
    (htail : tail = [] ∨ kwFILE.isPrefixOf tail) :
    pyStrip (parse_until (skip_whitespace (advance s 1)) [nlFIND, nlFILE]).1 = r ∧
    (parse_until (skip_whitespace (advance s 1)) [nlFIND, nlFILE]).2.content =
      s.content ∧
    (((parse_until (skip_whitespace (advance s 1)) [nlFIND, nlFILE]).2.position =
        s.position + 2 + r.length ∧
      s.content.drop (s.position + 2 + r.length) = '\n' :: tail) ∨
     ((parse_until (skip_whitespace (advance s 1)) [nlFIND, nlFILE]).2.position =
        s.position + 3 + r.length ∧
      s.content.drop (s.position + 3 + r.length) = [] ∧ tail = [])) := by
  obtain ⟨r0, rt, rfl⟩ : ∃ r0 rt, r = r0 :: rt := by
    cases r with
    | nil => exact absurd rfl hne
    | cons r0 rt => exact ⟨r0, rt, rfl⟩
  have hr0 : ¬ pyIsSpace r0 := head_not_space_of_fix hstrip
  have hdc : s.content.drop s.position =
      [':'] ++ ('\n' :: ((r0 :: rt) ++ '\n' :: tail)) := hd
  have h1 := advance_exact h hdc
  simp only [List.length_singleton] at h1
  have h1le : (advance s 1).position ≤ (advance s 1).content.length := by
    have hlen := congrArg List.length h1.2.2
    rw [List.length_drop] at hlen
    simp only [List.length_cons, List.length_append] at hlen
    rw [h1.1, h1.2.1]
    omega
  have hd2 : (advance s 1).content.drop (advance s 1).position =
      ['\n'] ++ ((r0 :: rt) ++ '\n' :: tail) := by
    rw [h1.1, h1.2.1]
    exact h1.2.2
  have hsw := sw_exact h1le hd2
    (by intro c hc; simp at hc; rw [hc]; decide)
    (by intro c hc
        rw [show ((r0 :: rt) ++ '\n' :: tail).head? = some r0 from rfl] at hc
        injection hc with hc
        rw [← hc]; exact hr0)
  have h2le : (skip_whitespace (advance s 1)).position ≤
      (skip_whitespace (advance s 1)).content.length := by
    rw [hsw.1]; exact sw_position_le _ h1le
  have hd3 : (skip_whitespace (advance s 1)).content.drop
      (skip_whitespace (advance s 1)).position = (r0 :: rt) ++ '\n' :: tail := by
    rw [hsw.1, hsw.2.1, h1.1, h1.2.1]
    have hx := hsw.2.2
    rw [h1.1, h1.2.1] at hx
    simp only [List.length_singleton] at hx
    exact hx
  have hFc : NoSub ('\n' :: kwFIND) (r0 :: rt) := hF
  have hLc : NoSub ('\n' :: kwFILE) (r0 :: rt) := hL
  rcases htail with rfl | hfile
  · -- last block: the payload runs to the end of input
    have hd4 : (skip_whitespace (advance s 1)).content.drop
        (skip_whitespace (advance s 1)).position =
        ((r0 :: rt) ++ ['\n']) ++ [] := by
      rw [hd3]; simp
    have hno : ∀ i < ((r0 :: rt) ++ ['\n']).length, ∀ d ∈ [nlFIND, nlFILE],
        ¬ d.isPrefixOf ((((r0 :: rt) ++ ['\n']) ++ []).drop i) := by
      intro i hi d hdm
      have hshape : ((r0 :: rt) ++ ['\n']) ++ [] = (r0 :: rt) ++ '\n' :: ([] : List Char) := by
        simp
      rw [hshape]
      simp only [List.mem_cons, List.not_mem_nil, or_false] at hdm
      simp only [List.length_append, List.length_cons, List.length_nil] at hi
      rcases Nat.lt_or_ge i (r0 :: rt).length with hilt | hige
      · rcases hdm with rfl | rfl
        · exact bridgeB (by decide) hFc i hilt
        · exact bridgeB (by decide) hLc i hilt
      · have hieq : i = (r0 :: rt).length := by
          simp only [List.length_cons] at hige ⊢
          omega
        subst hieq
        rw [List.drop_left]
        intro hp
        have hlen2 := isPrefixOf_length hp
        have h6 : nlFIND.length = 6 := rfl
        have h7 : nlFILE.length = 6 := rfl
        simp only [List.length_singleton] at hlen2
        rcases hdm with rfl | rfl <;> omega
    have hpu := pu_exact hd4 hno (Or.inl rfl)
    have hadv2 := advance_exact h2le hd4
    refine ⟨?_, ?_, Or.inr ⟨?_, ?_, rfl⟩⟩
    · rw [hpu]
      exact pyStrip_append_nl hne hstrip
    · rw [hpu]
      dsimp only
      rw [hadv2.1, hsw.1, h1.1]
    · rw [hpu]
      dsimp only
      rw [hadv2.2.1, hsw.2.1, h1.2.1]
      simp only [List.length_append, List.length_cons, List.length_nil,
        List.length_singleton]
      omega
    · have hx := hadv2.2.2
      rw [hsw.1, hsw.2.1, h1.1, h1.2.1] at hx
      simp only [List.length_singleton, List.length_append, List.length_cons,
        List.length_nil, List.append_nil] at hx ⊢
      have heq : s.position + 1 + 1 + (rt.length + 1 + 1) =
          s.position + 3 + (rt.length + 1) := by omega
      rw [← heq]
      exact hx
  · -- another FILE block follows
    have hno : ∀ i < (r0 :: rt).length, ∀ d ∈ [nlFIND, nlFILE],
        ¬ d.isPrefixOf (((r0 :: rt) ++ '\n' :: tail).drop i) := by
      intro i hi d hdm
      simp only [List.mem_cons, List.not_mem_nil, or_false] at hdm
      rcases hdm with rfl | rfl
      · exact bridgeB (by decide) hFc i hi
      · exact bridgeB (by decide) hLc i hi
    have hstop : ('\n' :: tail) = [] ∨
        ∃ d ∈ [nlFIND, nlFILE], d.isPrefixOf ('\n' :: tail) := by
      right
      refine ⟨nlFILE, by simp, ?_⟩
      show ('\n' :: kwFILE).isPrefixOf ('\n' :: tail) = true
      rw [List.isPrefixOf_cons₂]
      simp [hfile]
    have hpu := pu_exact hd3 hno hstop
    have hadv2 := advance_exact h2le hd3
    refine ⟨?_, ?_, Or.inl ⟨?_, ?_⟩⟩
    · rw [hpu]
      exact hstrip
    · rw [hpu]
      dsimp only
      rw [hadv2.1, hsw.1, h1.1]
    · rw [hpu]
      dsimp only
      rw [hadv2.2.1, hsw.2.1, h1.2.1]
      simp only [List.length_singleton, List.length_cons, List.length_nil]
      try omega
    · have hx := hadv2.2.2
      rw [hsw.1, hsw.2.1, h1.1, h1.2.1] at hx
      simp only [List.length_singleton, List.length_cons, List.length_nil] at hx ⊢
      have heq : s.position + 1 + 1 + (rt.length + 1) =
          s.position + 2 + (rt.length + 1) := by omega
      rw [← heq]
      exact hx

theorem colon_result {s0 : ParserState} {v r tail : List Char}
    (h : s0.position ≤ s0.content.length)
    (hd : s0.content.drop s0.position = v ++ ':' :: ('\n' :: (r ++ '\n' :: tail)))
    (hne : r ≠ []) (hstrip : pyStrip r = r)
    (hF : NoSub nlFIND r) (hL : NoSub nlFILE r)
    (htail : tail = [] ∨ kwFILE.isPrefixOf tail) :
    pyStrip (parse_until (skip_whitespace (advance (advance s0 v.length) 1))
      [nlFIND, nlFILE]).1 = r ∧
    (parse_until (skip_whitespace (advance (advance s0 v.length) 1))
      [nlFIND, nlFILE]).2.content = s0.content ∧
    (((parse_until (skip_whitespace (advance (advance s0 v.length) 1))
        [nlFIND, nlFILE]).2.position = s0.position + v.length + 2 + r.length ∧
      s0.content.drop (s0.position + v.length + 2 + r.length) = '\n' :: tail) ∨
     ((parse_until (skip_whitespace (advance (advance s0 v.length) 1))
        [nlFIND, nlFILE]).2.position = s0.position + v.length + 3 + r.length ∧
      s0.content.drop (s0.position + v.length + 3 + r.length) = [] ∧ tail = [])) := by
  have hadv := advance_exact h hd
  have h1le : (advance s0 v.length).position ≤
      (advance s0 v.length).content.length := by
    have hlen := congrArg List.length hadv.2.2
    rw [List.length_drop] at hlen
    simp only [List.length_cons, List.length_append] at hlen
    rw [hadv.1, hadv.2.1]
    omega
  have hd1 : (advance s0 v.length).content.drop (advance s0 v.length).position =
      ':' :: ('\n' :: (r ++ '\n' :: tail)) := by
    rw [hadv.1, hadv.2.1]
    exact hadv.2.2
  have hchain := colon_payload_chain h1le hd1 hne hstrip hF hL htail
  obtain ⟨hstr, hcont, hdisj⟩ := hchain
  refine ⟨hstr, by rw [hcont, hadv.1], ?_⟩
  rcases hdisj with ⟨hp, hdrop⟩ | ⟨hp, hdrop, htl⟩
  · left
    rw [hadv.1, hadv.2.1] at hdrop
    exact ⟨by rw [hp, hadv.2.1], hdrop⟩
  · right
    rw [hadv.1, hadv.2.1] at hdrop
    exact ⟨by rw [hp, hadv.2.1], hdrop, htl⟩

theorem pop_serialized {s : ParserState} {op : PatchOperation} {tail : List Char}
    (h : s.position ≤ s.content.length)
    (hwf : OpWF op) (hrok : ReplOK op.new_content)
    (hd : s.content.drop s.position = opSegment op ++ '\n' :: tail)
    (htail : tail = [] ∨ kwFILE.isPrefixOf tail) :
    ∃ sO : ParserState,
      parse_operation s = (some (op.operation, op.new_content), sO) ∧
      sO.content = s.content ∧
      ((sO.position = s.position + (opSegment op).length ∧
        s.content.drop sO.position = '\n' :: tail) ∨
       (sO.position = s.position + (opSegment op).length + 1 ∧
        s.content.drop sO.position = [] ∧ tail = [])) := by
  unfold parse_operation
  cases hopk : op.operation with
  | DELETE =>
    have hnc : op.new_content = none := hwf.1 hopk
    have hseg : opSegment op = kwDELETE := by unfold opSegment; rw [hopk]
    have hdD : s.content.drop s.position = kwDELETE ++ '\n' :: tail := by
      rw [hd, hseg]
    have hdhead : s.content.drop s.position =
        'D' :: ("ELETE".toList ++ '\n' :: tail) := by rw [hdD]; rfl
    have hsw := sw_noop hdhead (by decide)
    rw [hsw]
    have hf1 : ¬ (OperationType.REPLACE).value.isPrefixOf
        (s.content.drop s.position) := by
      rw [hdD]
      apply not_isPrefixOf_of_getElem_ne (j := 0) (by decide)
      rw [List.getElem?_append_left (by decide)]
      decide
    have hf2 : ¬ (OperationType.ADD_BEFORE).value.isPrefixOf
        (s.content.drop s.position) := by
      rw [hdD]
      apply not_isPrefixOf_of_getElem_ne (j := 0) (by decide)
      rw [List.getElem?_append_left (by decide)]
      decide
    have hf3 : ¬ (OperationType.ADD_AFTER).value.isPrefixOf
        (s.content.drop s.position) := by
      rw [hdD]
      apply not_isPrefixOf_of_getElem_ne (j := 0) (by decide)
      rw [List.getElem?_append_left (by decide)]
      decide
    have htry : tryOp operationTypeList s =
        (some (OperationType.DELETE, none), advance s kwDELETE.length) := by
      unfold operationTypeList
      rw [tryOp_step_fail hf1, tryOp_step_fail hf2, tryOp_step_fail hf3,
        tryOp_step_delete hdD]
    have hadv := advance_exact h hdD
    refine ⟨advance s kwDELETE.length, by rw [hnc]; exact htry,
      hadv.1, Or.inl ⟨?_, ?_⟩⟩
    · rw [hadv.2.1, hseg]
    · rw [hadv.2.1]
      exact hadv.2.2
  | REPLACE =>
    obtain ⟨r, hr⟩ := Option.isSome_iff_exists.mp
      (hwf.2 (by rw [hopk]; intro hx; cases hx))
    have hrok2 : r ≠ [] ∧ pyStrip r = r ∧ NoSub nlFIND r ∧ NoSub nlFILE r := by
      have hx := hrok; rw [hr] at hx; exact hx
    have hseg : opSegment op = kwREPLACEC ++ '\n' :: r := by
      unfold opSegment; rw [hopk, hr]; rfl
    have hdR : s.content.drop s.position =
        (OperationType.REPLACE).value ++ ':' :: ('\n' :: (r ++ '\n' :: tail)) := by
      rw [hd, hseg]
      have hk : kwREPLACEC = (OperationType.REPLACE).value ++ [':'] := rfl
      rw [hk]
      simp
    have hdhead : s.content.drop s.position =
        'R' :: ("EPLACE WITH".toList ++ ':' :: ('\n' :: (r ++ '\n' :: tail))) := by
      rw [hdR]; rfl
    have hsw := sw_noop hdhead (by decide)
    rw [hsw]
    have htry : tryOp operationTypeList s =
        (some (OperationType.REPLACE, some (pyStrip (parse_until
            (skip_whitespace (advance (advance s
              (OperationType.REPLACE).value.length) 1)) [nlFIND, nlFILE]).1)),
         (parse_until (skip_whitespace (advance (advance s
            (OperationType.REPLACE).value.length) 1)) [nlFIND, nlFILE]).2) := by
      unfold operationTypeList
      rw [tryOp_step_colon h (by intro hx; cases hx) hdR]
    obtain ⟨hstr, hcont, hdisj⟩ := colon_result h hdR hrok2.1 hrok2.2.1
      hrok2.2.2.1 hrok2.2.2.2 htail
    have hvl : (OperationType.REPLACE).value.length = 12 := rfl
    have hsl : (opSegment op).length = 14 + r.length := by
      rw [hseg]
      simp only [List.length_append, List.length_cons]
      have : kwREPLACEC.length = 13 := rfl
      omega
    refine ⟨(parse_until (skip_whitespace (advance (advance s
        (OperationType.REPLACE).value.length) 1)) [nlFIND, nlFILE]).2,
      by rw [hr, ← hstr]; exact htry, hcont, ?_⟩
    rcases hdisj with ⟨hp, hdrop⟩ | ⟨hp, hdrop, htl⟩
    · exact Or.inl ⟨by rw [hp, hvl, hsl]; omega, by rw [hp]; exact hdrop⟩
    · exact Or.inr ⟨by rw [hp, hvl, hsl]; omega, by rw [hp]; exact hdrop, htl⟩
  | ADD_BEFORE =>
    obtain ⟨r, hr⟩ := Option.isSome_iff_exists.mp
      (hwf.2 (by rw [hopk]; intro hx; cases hx))
    have hrok2 : r ≠ [] ∧ pyStrip r = r ∧ NoSub nlFIND r ∧ NoSub nlFILE r := by
      have hx := hrok; rw [hr] at hx; exact hx
    have hseg : opSegment op = kwADDBC ++ '\n' :: r := by
      unfold opSegment; rw [hopk, hr]; rfl
    have hdR : s.content.drop s.position =
        (OperationType.ADD_BEFORE).value ++ ':' :: ('\n' :: (r ++ '\n' :: tail)) := by
      rw [hd, hseg]
      have hk : kwADDBC = (OperationType.ADD_BEFORE).value ++ [':'] := rfl
      rw [hk]
      simp
    have hdhead : s.content.drop s.position =
        'A' :: ("DD BEFORE".toList ++ ':' :: ('\n' :: (r ++ '\n' :: tail))) := by
      rw [hdR]; rfl
    have hsw := sw_noop hdhead (by decide)
    rw [hsw]
    have hf1 : ¬ (OperationType.REPLACE).value.isPrefixOf
        (s.content.drop s.position) := by
      rw [hdR]
      apply not_isPrefixOf_of_getElem_ne (j := 0) (by decide)
      rw [List.getElem?_append_left (by decide)]
      decide
    have htry : tryOp operationTypeList s =
        (some (OperationType.ADD_BEFORE, some (pyStrip (parse_until
            (skip_whitespace (advance (advance s
              (OperationType.ADD_BEFORE).value.length) 1)) [nlFIND, nlFILE]).1)),
         (parse_until (skip_whitespace (advance (advance s
            (OperationType.ADD_BEFORE).value.length) 1)) [nlFIND, nlFILE]).2) := by
      unfold operationTypeList
      rw [tryOp_step_fail hf1, tryOp_step_colon h (by intro hx; cases hx) hdR]
    obtain ⟨hstr, hcont, hdisj⟩ := colon_result h hdR hrok2.1 hrok2.2.1
      hrok2.2.2.1 hrok2.2.2.2 htail
    have hvl : (OperationType.ADD_BEFORE).value.length = 10 := rfl
    have hsl : (opSegment op).length = 12 + r.length := by
      rw [hseg]
      simp only [List.length_append, List.length_cons]
      have : kwADDBC.length = 11 := rfl
      omega
    refine ⟨(parse_until (skip_whitespace (advance (advance s
        (OperationType.ADD_BEFORE).value.length) 1)) [nlFIND, nlFILE]).2,
      by rw [hr, ← hstr]; exact htry, hcont, ?_⟩
    rcases hdisj with ⟨hp, hdrop⟩ | ⟨hp, hdrop, htl⟩
    · exact Or.inl ⟨by rw [hp, hvl, hsl]; omega, by rw [hp]; exact hdrop⟩
    · exact Or.inr ⟨by rw [hp, hvl, hsl]; omega, by rw [hp]; exact hdrop, htl⟩
  | ADD_AFTER =>
    obtain ⟨r, hr⟩ := Option.isSome_iff_exists.mp
      (hwf.2 (by rw [hopk]; intro hx; cases hx))
    have hrok2 : r ≠ [] ∧ pyStrip r = r ∧ NoSub nlFIND r ∧ NoSub nlFILE r := by
      have hx := hrok; rw [hr] at hx; exact hx
    have hseg : opSegment op = kwADDAC ++ '\n' :: r := by
      unfold opSegment; rw [hopk, hr]; rfl
    have hdR : s.content.drop s.position =
        (OperationType.ADD_AFTER).value ++ ':' :: ('\n' :: (r ++ '\n' :: tail)) := by
      rw [hd, hseg]
      have hk : kwADDAC = (OperationType.ADD_AFTER).value ++ [':'] := rfl
      rw [hk]
      simp
    have hdhead : s.content.drop s.position =
        'A' :: ("DD AFTER".toList ++ ':' :: ('\n' :: (r ++ '\n' :: tail))) := by
      rw [hdR]; rfl
    have hsw := sw_noop hdhead (by decide)
    rw [hsw]
    have hf1 : ¬ (OperationType.REPLACE).value.isPrefixOf
        (s.content.drop s.position) := by
      rw [hdR]
      apply not_isPrefixOf_of_getElem_ne (j := 0) (by decide)
      rw [List.getElem?_append_left (by decide)]
      decide
    have hf2 : ¬ (OperationType.ADD_BEFORE).value.isPrefixOf
        (s.content.drop s.position) := by
      rw [hdR]
      apply not_isPrefixOf_of_getElem_ne (j := 4) (by decide)
      rw [List.getElem?_append_left (by decide)]
      decide
    have htry : tryOp operationTypeList s =
        (some (OperationType.ADD_AFTER, some (pyStrip (parse_until
            (skip_whitespace (advance (advance s
              (OperationType.ADD_AFTER).value.length) 1)) [nlFIND, nlFILE]).1)),
         (parse_until (skip_whitespace (advance (advance s
            (OperationType.ADD_AFTER).value.length) 1)) [nlFIND, nlFILE]).2) := by
      unfold operationTypeList
      rw [tryOp_step_fail hf1, tryOp_step_fail hf2,
        tryOp_step_colon h (by intro hx; cases hx) hdR]
    obtain ⟨hstr, hcont, hdisj⟩ := colon_result h hdR hrok2.1 hrok2.2.1
      hrok2.2.2.1 hrok2.2.2.2 htail
    have hvl : (OperationType.ADD_AFTER).value.length = 9 := rfl
    have hsl : (opSegment op).length = 11 + r.length := by
      rw [hseg]
      simp only [List.length_append, List.length_cons]
      have : kwADDAC.length = 10 := rfl
      omega
    refine ⟨(parse_until (skip_whitespace (advance (advance s
        (OperationType.ADD_AFTER).value.length) 1)) [nlFIND, nlFILE]).2,
      by rw [hr, ← hstr]; exact htry, hcont, ?_⟩
    rcases hdisj with ⟨hp, hdrop⟩ | ⟨hp, hdrop, htl⟩
    · exact Or.inl ⟨by rw [hp, hvl, hsl]; omega, by rw [hp]; exact hdrop⟩
    · exact Or.inr ⟨by rw [hp, hvl, hsl]; omega, by rw [hp]; exact hdrop, htl⟩

theorem innerLoop_done_end {fuel : Nat} {path : List Char} {s : ParserState}
    {ops : List PatchOperation} {idx : Nat}
    (h : ¬ s.position < s.content.length) :
    innerLoop (fuel + 1) path s ops idx = some (.done s ops idx) := by
  simp only [innerLoop]
  rw [if_neg h]

theorem innerLoop_done_break {fuel : Nat} {path : List Char} {s : ParserState}
    {ops : List PatchOperation} {idx : Nat}
    (hpos : s.position < s.content.length)
    (hbrk : (decide (wsScan s.content s.position < s.content.length) &&
      kwFILE.isPrefixOf (s.content.drop (wsScan s.content s.position))) = true) :
    innerLoop (fuel + 1) path s ops idx = some (.done s ops idx) := by
  simp only [innerLoop]
  rw [if_pos hpos, if_pos hbrk]

theorem innerLoop_step (fuel : Nat) (path : List Char) {s s1 s2 : ParserState}
    (ops : List PatchOperation) (idx : Nat) {fc : List Char}
    {ot : OperationType} {nc : Option (List Char)}
    (hpos : s.position < s.content.length)
    (hbrk : ¬ ((decide (wsScan s.content s.position < s.content.length) &&
      kwFILE.isPrefixOf (s.content.drop (wsScan s.content s.position))) = true))
    (hfb : parse_find_block s = .ok (fc, s1))
    (hpo : parse_operation s1 = (some (ot, nc), s2)) :
    innerLoop (fuel + 1) path s ops idx =
      innerLoop fuel path (skip_whitespace s2)
        (ops ++ [⟨path, fc, ot, nc⟩]) (idx + 1) := by
  simp only [innerLoop]
  rw [if_pos hpos, if_neg hbrk, hfb]
  dsimp only
  rw [hpo]

theorem serializeOp_length_pos (op : PatchOperation) :
    1 ≤ (serializeOp op).length := by
  have h := serializeOp_decomp op []
  rw [List.append_nil] at h
  have h2 := congrArg List.length h
  rw [h2]
  simp only [List.length_append, List.length_cons, List.length_nil,
    List.length_singleton]
  omega

theorem serialize_cons (a : PatchOperation) (l : List PatchOperation) :
    serialize (a :: l) = serializeOp a ++ serialize l := by
  unfold serialize
  rw [List.map_cons]
  rfl

theorem kwFILE_prefix_serializeOp (a : PatchOperation) (t : List Char) :
    kwFILE.isPrefixOf (serializeOp a ++ t) := by
  rw [serializeOp_decomp, List.append_assoc]
  exact isPrefixOf_append_self _ _

theorem serialize_length_ge :
    ∀ L : List PatchOperation, L.length ≤ (serialize L).length := by
  intro L
  induction L with
  | nil => simp [serialize]
  | cons a L ih =>
    rw [serialize_cons, List.length_append, List.length_cons]
    have := serializeOp_length_pos a
    omega

theorem inner_serialized (f : Nat) (path : List Char) {sD : ParserState}
    {op : PatchOperation} {tail : List Char} (ops : List PatchOperation)
    (idx : Nat)
    (h : sD.position ≤ sD.content.length)
    (hwf : OpWF op) (hrok : ReplOK op.new_content)
    (hfne : op.find_content ≠ [])
    (hfstrip : pyStrip op.find_content = op.find_content)
    (hf1 : NoSub kwREPLACEC op.find_content)
    (hf2 : NoSub kwADDBC op.find_content)
    (hf3 : NoSub kwADDAC op.find_content)
    (hf4 : NoSub kwDELETE op.find_content)
    (hd : sD.content.drop sD.position =
      '\n' :: (kwFIND ++ ('\n' :: (op.find_content ++ ('\n' ::
        (opSegment op ++ ('\n' :: tail)))))))
    (htail : tail = [] ∨ kwFILE.isPrefixOf tail) :
    ∃ s3 : ParserState,
      innerLoop (f + 1 + 1) path sD ops idx =
        some (.done s3 (ops ++ [⟨path, op.find_content, op.operation,
          op.new_content⟩]) (idx + 1)) ∧
      s3.content = sD.content ∧ s3.position ≤ sD.content.length ∧
      sD.content.drop s3.position = tail := by
  have hpos : sD.position < sD.content.length := by
    have hlen := congrArg List.length hd
    rw [List.length_drop] at hlen
    simp only [List.length_cons, List.length_append] at hlen
    omega
  have hc1 : skipWsCount (sD.content.drop sD.position) = 1 := by
    rw [hd]
    have hx : skipWsCount (['\n'] ++ (kwFIND ++ ('\n' :: (op.find_content ++
        ('\n' :: (opSegment op ++ ('\n' :: tail))))))) =
        (['\n'] : List Char).length := skipWsCount_exact
      (by intro c hc; simp at hc; rw [hc]; decide)
      (by intro c hc
          rw [show (kwFIND ++ ('\n' :: (op.find_content ++ ('\n' ::
            (opSegment op ++ ('\n' :: tail)))))).head? = some 'F' from rfl] at hc
          injection hc with hc
          rw [← hc]; decide)
    simpa using hx
  have hnp : wsScan sD.content sD.position = sD.position + 1 := by
    unfold wsScan
    rw [hc1]
  have hdrop1 : sD.content.drop (sD.position + 1) =
      kwFIND ++ ('\n' :: (op.find_content ++ ('\n' ::
        (opSegment op ++ ('\n' :: tail))))) := by
    have heq : sD.content.drop (sD.position + 1) =
        (sD.content.drop sD.position).drop 1 := by
      rw [List.drop_drop]
    rw [heq, hd]
    rfl
  have hpref : kwFILE.isPrefixOf (sD.content.drop (sD.position + 1)) = false := by
    refine Bool.eq_false_iff.mpr ?_
    rw [hdrop1]
    apply not_isPrefixOf_of_getElem_ne (j := 2) (by decide)
    rw [List.getElem?_append_left (by decide)]
    decide
  have hbrkne : ¬ ((decide (wsScan sD.content sD.position < sD.content.length) &&
      kwFILE.isPrefixOf (sD.content.drop
        (wsScan sD.content sD.position))) = true) := by
    rw [hnp, hpref, Bool.and_false]
    exact Bool.false_ne_true
  have hstop : ∃ d ∈ [kwREPLACEC, kwADDBC, kwADDAC, kwDELETE],
      d.isPrefixOf (opSegment op ++ '\n' :: tail) := by
    unfold opSegment
    cases op.operation with
    | REPLACE =>
      refine ⟨kwREPLACEC, by simp, ?_⟩
      dsimp only
      rw [List.append_assoc]
      exact isPrefixOf_append_self _ _
    | ADD_BEFORE =>
      refine ⟨kwADDBC, by simp, ?_⟩
      dsimp only
      rw [List.append_assoc]
      exact isPrefixOf_append_self _ _
    | ADD_AFTER =>
      refine ⟨kwADDAC, by simp, ?_⟩
      dsimp only
      rw [List.append_assoc]
      exact isPrefixOf_append_self _ _
    | DELETE =>
      exact ⟨kwDELETE, by simp, isPrefixOf_append_self _ _⟩
  obtain ⟨sB, hfb, hBc, hBp, hBd⟩ :=
    pfb_serialized h hd hfne hfstrip hf1 hf2 hf3 hf4 hstop
  have hBd2 : sB.content.drop sB.position = opSegment op ++ '\n' :: tail := by
    rw [hBc]; exact hBd
  have hBle : sB.position ≤ sB.content.length := by
    have hlen := congrArg List.length hBd2
    rw [List.length_drop] at hlen
    simp only [List.length_append, List.length_cons] at hlen
    omega
  obtain ⟨sO, hpo, hOc, hOdisj⟩ := pop_serialized hBle hwf hrok hBd2 htail
  have hOc2 : sO.content = sD.content := by rw [hOc, hBc]
  have hstep := innerLoop_step (f + 1) path ops idx hpos hbrkne hfb hpo
  rcases hOdisj with ⟨hOp, hOd⟩ | ⟨hOp, hOd, htl⟩
  · have hOdD : sD.content.drop sO.position = '\n' :: tail := by
      rw [← hBc]; exact hOd
    have hOle : sO.position ≤ sD.content.length := by
      have hlen := congrArg List.length hOdD
      rw [List.length_drop] at hlen
      simp only [List.length_cons] at hlen
      omega
    have hOle2 : sO.position ≤ sO.content.length := by rw [hOc2]; exact hOle
    rcases htail with rfl | hpf
    · have hOd2 : sO.content.drop sO.position = ['\n'] ++ ([] : List Char) := by
        rw [List.append_nil, hOc2]; exact hOdD
      have hsw := sw_exact hOle2 hOd2
        (by intro c hc; simp at hc; rw [hc]; decide)
        (by intro c hc; simp at hc)
      have hlen1 : sD.content.length - sO.position = 1 := by
        have hlen := congrArg List.length hOdD
        rw [List.length_drop] at hlen
        simpa using hlen
      have hnpos : ¬ ((skip_whitespace sO).position <
          (skip_whitespace sO).content.length) := by
        rw [hsw.2.1, hsw.1, hOc2]
        simp only [List.length_singleton]
        omega
      refine ⟨skip_whitespace sO, ?_, ?_, ?_, ?_⟩
      · rw [hstep]
        exact innerLoop_done_end hnpos
      · rw [hsw.1, hOc2]
      · rw [hsw.2.1]
        simp only [List.length_singleton]
        omega
      · rw [hsw.2.1, ← hOc2]
        have hx := hsw.2.2
        simp only [List.length_singleton] at hx
        exact hx
    · have hpfne : tail ≠ [] := by
        intro hx
        rw [hx] at hpf
        exact (by decide : ¬ kwFILE.isPrefixOf ([] : List Char)) hpf
      obtain ⟨c0, t0, rfl⟩ : ∃ c0 t0, tail = c0 :: t0 := by
        cases tail with
        | nil => exact absurd rfl hpfne
        | cons a b => exact ⟨a, b, rfl⟩
      have hc0 : c0 = 'F' := by
        have hx := head_of_isPrefixOf hpf (by decide)
        rw [show kwFILE.head? = some 'F' from rfl] at hx
        injection hx with hx
        exact hx.symm
      subst hc0
      have hOd2 : sO.content.drop sO.position = ['\n'] ++ ('F' :: t0) := by
        rw [hOc2]; exact hOdD
      have hsw := sw_exact hOle2 hOd2
        (by intro c hc; simp at hc; rw [hc]; decide)
        (by intro c hc
            rw [show ('F' :: t0).head? = some 'F' from rfl] at hc
            injection hc with hc
            rw [← hc]; decide)
      have hlen1 : sD.content.length - sO.position = t0.length + 2 := by
        have hlen := congrArg List.length hOdD
        rw [List.length_drop] at hlen
        simp only [List.length_cons] at hlen
        omega
      have hdrop3 : (skip_whitespace sO).content.drop
          (skip_whitespace sO).position = 'F' :: t0 := by
        rw [hsw.1, hsw.2.1]
        have hx := hsw.2.2
        simp only [List.length_singleton] at hx
        exact hx
      have hposS : (skip_whitespace sO).position <
          (skip_whitespace sO).content.length := by
        rw [hsw.2.1, hsw.1, hOc2]
        simp only [List.length_singleton]
        omega
      have hnp2 : wsScan (skip_whitespace sO).content
          (skip_whitespace sO).position = (skip_whitespace sO).position := by
        unfold wsScan
        rw [hdrop3]
        simp only [skipWsCount]
        rw [if_neg (by decide)]
        omega
      have hguard : (decide (wsScan (skip_whitespace sO).content
            (skip_whitespace sO).position <
            (skip_whitespace sO).content.length) &&
          kwFILE.isPrefixOf ((skip_whitespace sO).content.drop
            (wsScan (skip_whitespace sO).content
              (skip_whitespace sO).position))) = true := by
        rw [hnp2, hdrop3, Bool.and_eq_true]
        exact ⟨decide_eq_true hposS, hpf⟩
      refine ⟨skip_whitespace sO, ?_, ?_, ?_, ?_⟩
      · rw [hstep]
        exact innerLoop_done_break hposS hguard
      · rw [hsw.1, hOc2]
      · rw [hsw.2.1]
        simp only [List.length_singleton]
        omega
      · rw [hsw.2.1, ← hOc2]
        have hx := hsw.2.2
        simp only [List.length_singleton] at hx
        exact hx
  · subst htl
    have hOdD : sD.content.drop sO.position = [] := by
      rw [← hBc]; exact hOd
    have hOd2 : sO.content.drop sO.position = [] := by
      rw [hOc2]; exact hOdD
    have hsw0 : skip_whitespace sO = sO := by
      unfold skip_whitespace
      rw [hOd2]
      rfl
    have hlen0 : sD.content.length ≤ sO.position := by
      have hlen := congrArg List.length hOdD
      rw [List.length_drop] at hlen
      simp only [List.length_nil] at hlen
      omega
    have hlenB : sB.content.length - sB.position = (opSegment op).length + 1 := by
      have hlen := congrArg List.length hBd2
      rw [List.length_drop] at hlen
      simp only [List.length_append, List.length_cons, List.length_nil] at hlen
      omega
    have hOple : sO.position ≤ sD.content.length := by
      rw [hOp, ← hBc]
      omega
    have hnpos : ¬ (sO.position < sO.content.length) := by
      rw [hOc2]
      omega
    refine ⟨sO, ?_, hOc2, hOple, hOdD⟩
    rw [hstep, hsw0]
    exact innerLoop_done_end hnpos

theorem block_serialized {fuel : Nat} {s : ParserState} {op : PatchOperation}
    {tail : List Char} {ops : List PatchOperation} {errs : List Error}
    {idx : Nat} {lastPath : Option (List Char)}
    (h : s.position ≤ s.content.length)
    (hok : SerOK op)
    (hd : s.content.drop s.position = serializeOp op ++ tail)
    (htail : tail = [] ∨ kwFILE.isPrefixOf tail) :
    ∃ s2 : ParserState,
      outerLoop (fuel + 1) s ops errs idx lastPath =
        outerLoop fuel s2 (ops ++ [op]) errs (idx + 1) (some op.file_path) ∧
      s2.content = s.content ∧ s2.position ≤ s.content.length ∧
      s.content.drop s2.position = tail := by
  obtain ⟨hwf, hpne, hpstrip, hpnl, hpbs, hpfind, hfne, hfstrip,
    hf1, hf2, hf3, hf4, hrok⟩ := hok
  have hdec : s.content.drop s.position = kwFILE ++ [' '] ++ (op.file_path ++
      '\n' :: (kwFIND ++ ('\n' :: (op.find_content ++ ('\n' ::
        (opSegment op ++ ('\n' :: tail))))))) := by
    rw [hd, serializeOp_decomp]
  have hpos0 : s.position < s.content.length := by
    have hlen := congrArg List.length hd
    rw [List.length_drop, List.length_append] at hlen
    have hser := serializeOp_length_pos op
    omega
  have hpfd := pfd_serialized h hdec hpne hpstrip hpnl hpbs hpfind
  have hDle : (advance (advance s kwFILE.length)
        (' ' :: op.file_path).length).position ≤
      (advance (advance s kwFILE.length)
        (' ' :: op.file_path).length).content.length := by
    rw [hpfd.2.1, hpfd.2.2.1]
    have hlen := congrArg List.length hpfd.2.2.2
    rw [List.length_drop] at hlen
    simp only [List.length_cons, List.length_append] at hlen
    omega
  have hDd2 : (advance (advance s kwFILE.length)
        (' ' :: op.file_path).length).content.drop
      (advance (advance s kwFILE.length)
        (' ' :: op.file_path).length).position =
      '\n' :: (kwFIND ++ ('\n' :: (op.find_content ++ ('\n' ::
        (opSegment op ++ ('\n' :: tail)))))) := by
    rw [hpfd.2.1, hpfd.2.2.1]
    exact hpfd.2.2.2
  obtain ⟨s3, hin, h3c, h3le, h3d⟩ := inner_serialized
    s.content.length op.file_path ops idx
    hDle hwf hrok hfne hfstrip hf1 hf2 hf3 hf4 hDd2 htail
  have hin2 : innerLoop (s.content.length + 2) op.file_path
      (advance (advance s kwFILE.length) (' ' :: op.file_path).length)
      ops idx =
      some (.done s3 (ops ++ [⟨op.file_path, op.find_content, op.operation,
        op.new_content⟩]) (idx + 1)) := hin
  have h3c2 : s3.content = s.content := by rw [h3c, hpfd.2.1]
  refine ⟨s3, ?_, h3c2, ?_, ?_⟩
  · simp only [outerLoop]
    rw [if_pos hpos0, hpfd.1]
    dsimp only
    rw [hin2]
  · rw [← hpfd.2.1]
    exact h3le
  · rw [← hpfd.2.1]
    exact h3d

theorem roundtrip_aux : ∀ (L : List PatchOperation) (fuel : Nat)
    (s : ParserState) (ops : List PatchOperation) (errs : List Error)
    (idx : Nat) (lastPath : Option (List Char)),
    (∀ op ∈ L, SerOK op) →
    s.position ≤ s.content.length →
    s.content.drop s.position = serialize L →
    L.length < fuel →
    outerLoop fuel s ops errs idx lastPath = some (ops ++ L, errs) := by
  intro L
  induction L with
  | nil =>
    intro fuel s ops errs idx lastPath hok h hd hf
    obtain ⟨f, rfl⟩ : ∃ f, fuel = f + 1 := ⟨fuel - 1, by omega⟩
    simp only [outerLoop]
    have hnpos : ¬ (s.position < s.content.length) := by
      have hlen := congrArg List.length hd
      rw [List.length_drop] at hlen
      simp only [serialize, List.map_nil, List.join_nil, List.length_nil]
        at hlen
      omega
    rw [if_neg hnpos, List.append_nil]
  | cons a L ih =>
    intro fuel s ops errs idx lastPath hok h hd hf
    obtain ⟨f, rfl⟩ : ∃ f, fuel = f + 1 := ⟨fuel - 1, by omega⟩
    have hd2 : s.content.drop s.position = serializeOp a ++ serialize L := by
      rw [hd, serialize_cons]
    have htail : serialize L = [] ∨ kwFILE.isPrefixOf (serialize L) := by
      cases L with
      | nil => exact Or.inl rfl
      | cons b L2 =>
        right
        rw [serialize_cons]
        exact kwFILE_prefix_serializeOp _ _
    obtain ⟨s2, hstep, h2c, h2le, h2d⟩ :=
      block_serialized h (hok a (List.mem_cons_self _ _)) hd2 htail
    rw [hstep]
    have h2le2 : s2.position ≤ s2.content.length := by
      rw [h2c]; exact h2le
    have h2d2 : s2.content.drop s2.position = serialize L := by
      rw [h2c]; exact h2d
    have hL : L.length < f := by
      simp only [List.length_cons] at hf
      omega
    rw [ih f s2 (ops ++ [a]) errs (idx + 1) (some a.file_path)
      (fun op hm => hok op (List.mem_cons_of_mem _ hm)) h2le2 h2d2 hL]
    rw [List.append_assoc, List.singleton_append]

/-- C8 (amended): the serialize-then-reparse round trip holds, with no
parse errors and every field preserved, for every operation list whose
members satisfy the `SerOK` side conditions: structurally well formed
(`new_content` present exactly for the non-DELETE kinds), file path
trimmed, nonempty and free of newlines, backslashes and `FIND:`, match
text trimmed, nonempty and free of the four operation keywords, and
replacement text (when present) trimmed, nonempty and free of the
`\nFIND:` / `\nFILE:` payload delimiters. The unrestricted claim is
refuted by `c8_counterexample` (a payload with a leading space is trimmed
by the re-parse). -/
theorem c8_amended_roundtrip (L : List PatchOperation)
    (hok : ∀ op ∈ L, SerOK op) :
    parse_patch_file (serialize L) = some (L, []) := by
  unfold parse_patch_file
  have hlen := serialize_length_ge L
  have hx := roundtrip_aux L ((serialize L).length + 2)
    ⟨serialize L, 0, 1⟩ [] [] 0 none hok (Nat.zero_le _) rfl (by omega)
  rw [hx, List.nil_append]

/-- Witness for the amended C8: a concrete two-operation list (one
REPLACE, one DELETE) satisfies the side conditions and round-trips. -/
theorem c8_amended_roundtrip_witness :
    (∀ op ∈ ([⟨"a.py".toList, "x = 1".toList, .REPLACE,
        some "y = 2".toList⟩,
      ⟨"b.py".toList, "def f(n):\n    return n".toList, .DELETE, none⟩] :
        List PatchOperation), SerOK op) ∧
    parse_patch_file (serialize [⟨"a.py".toList, "x = 1".toList, .REPLACE,
        some "y = 2".toList⟩,
      ⟨"b.py".toList, "def f(n):\n    return n".toList, .DELETE, none⟩]) =
      some ([⟨"a.py".toList, "x = 1".toList, .REPLACE,
        some "y = 2".toList⟩,
      ⟨"b.py".toList, "def f(n):\n    return n".toList, .DELETE, none⟩],
        []) :=
  ⟨by decide, c8_amended_roundtrip _ (by decide)⟩

end EasyPatch
